import Mathlib

/-!
# TaskManager console application: a verification development

Shallow embedding of `src/TaskManager_ConsoleApp.cpp` (classes `Task` and
`TaskManager`) and theorems about record serialisation, store persistence, id
assignment and the store operations.

Modelling conventions
* `std::string` is a list of characters (`Str`).
* `int` is a 32-bit two's-complement integer, carried as an `Int` in
  `[INT_MIN, INT_MAX]`; an addition that leaves the range wraps modulo `2^32`
  (`wrapInt`).  Signed overflow being undefined in C++, the id counter also
  carries a sticky flag that records whether such a wrap has happened.
* The static `Task::nextId` is threaded explicitly as an `IdCounter`.
* Uncaught C++ exceptions (`std::stoi`) are `Except.error`.
* Values read from `std::cin` (a description line, a task id) are parameters of
  the operation that reads them; console output is reduced to the message that
  reports the outcome of the operation (`Outcome`).
-/

namespace TaskManagerApp

/-! ## Strings and machine integers -/

/-- A `std::string`: a finite sequence of characters. -/
abbrev Str := List Char

/-- Smallest value of `int`. -/
def INT_MIN : Int := -2147483648

/-- Largest value of `int`. -/
def INT_MAX : Int := 2147483647

/-- Membership in the range of `int`. -/
def InIntRange (x : Int) : Prop := INT_MIN ≤ x ∧ x ≤ INT_MAX

instance (x : Int) : Decidable (InIntRange x) := by
  unfold InIntRange; exact inferInstance

/-- Reduction of a mathematical integer to the 32-bit two's-complement value
with the same residue modulo `2^32`. -/
def wrapInt (x : Int) : Int := (x + 2147483648) % 4294967296 - 2147483648

/-- Exceptions thrown by `std::stoi`. -/
inductive Exn where
  | invalid_argument
  | out_of_range
  deriving DecidableEq, Repr

deriving instance DecidableEq for Except

/-! ## Stream extraction: `std::getline` -/

/-- The loop `while (getline(stream, item, delim)) items.push_back(item);`.
`cur` is the part of the current item extracted so far.  A call that meets the
delimiter ends the item (the delimiter is consumed and not stored); a call that
meets the end of the stream ends the item if at least one character was
extracted, and fails, ending the loop, if none was. -/
def getlineLoop (delim : Char) : Str → Str → List Str
  | cur, [] => if cur = [] then [] else [cur]
  | cur, c :: cs =>
    if c = delim then cur :: getlineLoop delim [] cs
    else getlineLoop delim (cur ++ [c]) cs

/-- All items that repeated `getline(stream, item, delim)` extracts from a
stream holding `s`. -/
def getlines (delim : Char) (s : Str) : List Str := getlineLoop delim [] s

/-! ## `std::to_string(int)` and `std::stoi` -/

/-- Decimal rendering `std::to_string(int)`: a minus sign for negative values
followed by the decimal digits of the magnitude, without leading zeros. -/
def to_string (i : Int) : Str :=
  match i with
  | Int.ofNat n => Nat.toDigits 10 n
  | Int.negSucc n => '-' :: Nat.toDigits 10 (n + 1)

/-- The whitespace test `isspace` of the "C" locale. -/
def isspace (c : Char) : Bool :=
  c = ' ' || c = '\t' || c = '\n' || c = Char.ofNat 11 || c = Char.ofNat 12 || c = '\r'

/-- The decimal digit test `isdigit`. -/
def isdigit (c : Char) : Bool := decide (48 ≤ c.toNat ∧ c.toNat ≤ 57)

/-- Value of a sequence of decimal digits, most significant first. -/
def digitsValue (ds : Str) : Nat :=
  ds.foldl (fun v c => 10 * v + (c.toNat - 48)) 0

/-- The conversion `std::stoi(str)` (base 10, no position argument), which goes
through `strtol`: leading whitespace is skipped, an optional sign is read, then
the longest run of decimal digits; whatever follows is ignored.  No digit at
all is `std::invalid_argument`; a value outside the range of `int` is
`std::out_of_range`. -/
def stoi (s : Str) : Except Exn Int :=
  let s1 := s.dropWhile isspace
  let signed : Bool × Str :=
    match s1 with
    | '-' :: r => (true, r)
    | '+' :: r => (false, r)
    | _ => (false, s1)
  let ds := signed.2.takeWhile isdigit
  if ds = [] then Except.error Exn.invalid_argument
  else
    let v : Int := if signed.1 then -(Int.ofNat (digitsValue ds)) else Int.ofNat (digitsValue ds)
    if INT_MIN ≤ v ∧ v ≤ INT_MAX then Except.ok v
    else Except.error Exn.out_of_range

/-! ## The id counter `Task::nextId` -/

/-- The static member `Task::nextId`, with a flag recording whether an
increment has overflowed `int` since the flag was last clear. -/
structure IdCounter where
  nextId : Int
  overflowed : Bool
  deriving DecidableEq, Repr

/-- Initial value `int Task::nextId = 1;`. -/
def IdCounter.init : IdCounter := { nextId := 1, overflowed := false }

/-! ## class Task -/

/-- The data members of `Task`. -/
structure Task where
  id : Int
  description : Str
  completed : Bool
  deriving DecidableEq, Repr

namespace Task

/-- The constructor `Task(const string& desc)`:
`id(nextId++), description(desc), completed(false)`. -/
def create (c : IdCounter) (desc : Str) : Task × IdCounter :=
  ({ id := c.nextId, description := desc, completed := false },
   { nextId := wrapInt (c.nextId + 1),
     overflowed := c.overflowed || decide (INT_MAX < c.nextId + 1) })

/-- The constructor `Task(int taskId, const string& desc, bool comp)`:
`id(taskId), description(desc), completed(comp)` and then
`if (taskId >= nextId) nextId = taskId + 1;`. -/
def reconstruct (c : IdCounter) (taskId : Int) (desc : Str) (comp : Bool) :
    Task × IdCounter :=
  ({ id := taskId, description := desc, completed := comp },
   if taskId ≥ c.nextId then
     { nextId := wrapInt (taskId + 1),
       overflowed := c.overflowed || decide (INT_MAX < taskId + 1) }
   else c)

/-- The member function `markCompleted`. -/
def markCompleted (t : Task) : Task := { t with completed := true }

/-- The member function `markPending`. -/
def markPending (t : Task) : Task := { t with completed := false }

/-- The member function `toString`:
`to_string(id) + "," + description + "," + (completed ? "1" : "0")`. -/
def toString (t : Task) : Str :=
  to_string t.id ++ [','] ++ t.description ++ [','] ++ (if t.completed then ['1'] else ['0'])

/-- The static member function `fromString`: the line is cut at `','` by
repeated `getline`; with exactly three tokens the task is rebuilt by the
three-argument constructor from `stoi(tokens[0])`, `tokens[1]` and
`tokens[2] == "1"`; otherwise `Task("")` is returned. -/
def fromString (c : IdCounter) (line : Str) : Except Exn (Task × IdCounter) :=
  match getlines ',' line with
  | [t0, t1, t2] =>
    match stoi t0 with
    | Except.ok taskId => Except.ok (reconstruct c taskId t1 (decide (t2 = ['1'])))
    | Except.error e => Except.error e
  | _ => Except.ok (create c [])

end Task

/-! ## class TaskManager -/

/-- The message by which an operation reports its outcome on the console. -/
inductive Outcome where
  /-- Message "Task added successfully!" -/
  | taskAdded
  /-- Message "Task description cannot be empty!" -/
  | emptyDescription
  /-- Message "No tasks available!" -/
  | noTasksAvailable
  /-- Message "Task marked as completed!" -/
  | markedCompleted
  /-- Message "Task is already completed!" -/
  | alreadyCompleted
  /-- Message "Task with ID <taskId> not found!" -/
  | notFound (taskId : Int)
  /-- Message "Task deleted successfully!" -/
  | taskDeleted
  deriving DecidableEq, Repr

/-- The data member `tasks` of `TaskManager` (the member `filename` only names
the file whose content `loadTasks` receives and `saveTasks` produces). -/
structure TaskManager where
  tasks : List Task
  deriving DecidableEq, Repr

/-- The algorithm `std::find_if(first, last, pred)`: the position of the first
element that satisfies `pred`, `none` standing for `last`. -/
def find_if (pred : Task → Bool) : List Task → Option Nat
  | [] => none
  | t :: ts => if pred t then some 0 else (find_if pred ts).map (· + 1)

/-- Replacement of the element at a position by its image under `f`
(a member call through an iterator, `it->f()`). -/
def updateAt (f : Task → Task) : List Task → Nat → List Task
  | [], _ => []
  | t :: ts, 0 => f t :: ts
  | t :: ts, n + 1 => t :: updateAt f ts n

/-- The call `vector::erase(it)`: removal of the element at a position. -/
def eraseAt : List Task → Nat → List Task
  | [], _ => []
  | _ :: ts, 0 => ts
  | t :: ts, n + 1 => t :: eraseAt ts n

namespace TaskManager

/-- The member function `addTask`; `description` is the line read from `cin`.
An empty description is reported and nothing is added; otherwise
`tasks.emplace_back(description)` constructs the task in place. -/
def addTask (m : TaskManager) (c : IdCounter) (description : Str) :
    TaskManager × IdCounter × Outcome :=
  if description = [] then (m, c, Outcome.emptyDescription)
  else
    let r := Task.create c description
    ({ tasks := m.tasks ++ [r.1] }, r.2, Outcome.taskAdded)

/-- The member function `markTaskCompleted`; `taskId` is the value read from
`cin`, which is read only when the store is not empty. -/
def markTaskCompleted (m : TaskManager) (taskId : Int) : TaskManager × Outcome :=
  if m.tasks = [] then (m, Outcome.noTasksAvailable)
  else
    match find_if (fun t => decide (t.id = taskId)) m.tasks with
    | some i =>
      if (m.tasks.get? i).any Task.completed then (m, Outcome.alreadyCompleted)
      else ({ tasks := updateAt Task.markCompleted m.tasks i }, Outcome.markedCompleted)
    | none => (m, Outcome.notFound taskId)

/-- The member function `deleteTask`; `taskId` is the value read from `cin`,
which is read only when the store is not empty. -/
def deleteTask (m : TaskManager) (taskId : Int) : TaskManager × Outcome :=
  if m.tasks = [] then (m, Outcome.noTasksAvailable)
  else
    match find_if (fun t => decide (t.id = taskId)) m.tasks with
    | some i => ({ tasks := eraseAt m.tasks i }, Outcome.taskDeleted)
    | none => (m, Outcome.notFound taskId)

/-- The loop of `saveTasks`: `file << task.toString() << endl` for every task. -/
def saveLoop : List Task → Str
  | [] => []
  | t :: ts => Task.toString t ++ ['\n'] ++ saveLoop ts

/-- The member function `saveTasks` when the file opens: the content written,
`task.toString()` followed by `endl` for every task in store order. -/
def saveTasks (m : TaskManager) : Str :=
  saveLoop m.tasks

/-- The body of the loop of `loadTasks`, over the lines still to be read. -/
def loadLoop : List Str → List Task → IdCounter → Except Exn (List Task × IdCounter)
  | [], tasks, c => Except.ok (tasks, c)
  | line :: rest, tasks, c =>
    if line = [] then loadLoop rest tasks c
    else
      match Task.fromString c line with
      | Except.ok r =>
        if r.1.description = [] then loadLoop rest tasks r.2
        else loadLoop rest (tasks ++ [r.1]) r.2
      | Except.error e => Except.error e

/-- The member function `loadTasks`; `file` is the content of the file when it
can be opened and `none` when it cannot. -/
def loadTasks (m : TaskManager) (c : IdCounter) (file : Option Str) :
    Except Exn (TaskManager × IdCounter) :=
  match file with
  | none => Except.ok (m, c)
  | some content =>
    match loadLoop (getlines '\n' content) m.tasks c with
    | Except.ok r => Except.ok ({ tasks := r.1 }, r.2)
    | Except.error e => Except.error e

end TaskManager

/-! ## Floating point: `double` -/

/-- A finite `double` (IEEE 754 binary64), given by sign, integer significand
and binary exponent: the value `± mant * 2 ^ exp`.  Every value that
`showStatistics` computes is zero or has a magnitude between `2^-31` and `2^38`,
far inside the exponent range of binary64, so overflow, underflow and subnormal
numbers are not modelled.  Expressions are evaluated in `double` itself, every
operation rounding once (`FLT_EVAL_METHOD` 0, as on x86-64). -/
structure Double where
  neg : Bool
  mant : Nat
  exp : Int
  deriving DecidableEq, Repr

/-- Number of binary digits of `n`, by repeated halving (`fuel` bounds the
number of halvings). -/
def bitLengthAux : Nat → Nat → Nat
  | 0, _ => 0
  | fuel + 1, n => if n = 0 then 0 else bitLengthAux fuel (n / 2) + 1

/-- Number of binary digits of `n`. -/
def bitLength (n : Nat) : Nat := bitLengthAux n n

/-- Numerator of the fraction `(num / den) / 2 ^ e`. -/
def scaleNum (num : Nat) (e : Int) : Nat := if 0 ≤ e then num else num * 2 ^ (-e).toNat

/-- Denominator of the fraction `(num / den) / 2 ^ e`. -/
def scaleDen (den : Nat) (e : Int) : Nat := if 0 ≤ e then den * 2 ^ e.toNat else den

/-- The integer nearest to `num / den`, a tie going to the even neighbour. -/
def roundHalfEven (num den : Nat) : Nat :=
  if 2 * (num % den) < den then num / den
  else if den < 2 * (num % den) then num / den + 1
  else if (num / den) % 2 = 0 then num / den else num / den + 1

/-- The exponent `e` of the binade of `num / den > 0` for a 53-bit significand:
`2 ^ (52 + e) ≤ num / den < 2 ^ (53 + e)`. -/
def binadeExp (num den : Nat) : Int :=
  if 2 ^ 52 * scaleDen den ((bitLength num : Int) - (bitLength den : Int) - 52) ≤
      scaleNum num ((bitLength num : Int) - (bitLength den : Int) - 52)
  then (bitLength num : Int) - (bitLength den : Int) - 52
  else (bitLength num : Int) - (bitLength den : Int) - 52 - 1

/-- The `double` nearest to the exact value `± num / den` (round to nearest,
ties to even), which is the result of every IEEE 754 arithmetic operation whose
exact result is that value. -/
def roundToDouble (neg : Bool) (num den : Nat) : Double :=
  if num = 0 then { neg := neg, mant := 0, exp := 0 }
  else
    { neg := neg,
      mant := roundHalfEven (scaleNum num (binadeExp num den)) (scaleDen den (binadeExp num den)),
      exp := binadeExp num den }

namespace Double

/-- The conversion `(double)i` of an `int`, which is exact. -/
def ofInt (i : Int) : Double := { neg := decide (i < 0), mant := i.natAbs, exp := 0 }

/-- The division `a / b` of two `double`s, for `b` not zero. -/
def div (a b : Double) : Double :=
  roundToDouble (a.neg != b.neg) (scaleNum a.mant (b.exp - a.exp)) (scaleDen b.mant (b.exp - a.exp))

/-- The multiplication `a * b` of two `double`s. -/
def mul (a b : Double) : Double :=
  roundToDouble (a.neg != b.neg) (scaleNum (a.mant * b.mant) (-(a.exp + b.exp)))
    (scaleDen 1 (-(a.exp + b.exp)))

/-- The value in tenths that `fixed << setprecision(1)` prints for the
magnitude of `x`: the exact binary value rounded to one decimal place (ties to
even). -/
def tenths (x : Double) : Nat :=
  roundHalfEven (scaleNum (10 * x.mant) (-x.exp)) (scaleDen 1 (-x.exp))

end Double

/-- The text of a number of tenths with one decimal place: integer part, point,
one digit. -/
def renderTenths (neg : Bool) (d : Nat) : Str :=
  (if neg then ['-'] else []) ++ Nat.toDigits 10 (d / 10) ++ ['.'] ++ Nat.toDigits 10 (d % 10)

/-- The output of `cout << fixed << setprecision(1) << x`. -/
def formatFixed1 (x : Double) : Str := renderTenths x.neg x.tenths

/-- What `showStatistics` prints: the three counts and, when it is printed, the
text of the completion rate (without the `%` sign). -/
structure Statistics where
  total : Int
  completed : Int
  pending : Int
  completionRate : Option Str
  deriving DecidableEq, Repr

/-- The algorithm `std::count_if(first, last, pred)`. -/
def count_if (pred : Task → Bool) : List Task → Nat
  | [] => 0
  | t :: ts => if pred t then count_if pred ts + 1 else count_if pred ts

/-- The member function `showStatistics`:
`int total = tasks.size(); int completed = count_if(...); int pending = total - completed;`
and, under the guard `total > 0`,
`double completionRate = (double)completed / total * 100`, printed with
`fixed << setprecision(1)`. -/
def TaskManager.showStatistics (m : TaskManager) : Statistics :=
  { total := wrapInt m.tasks.length,
    completed := wrapInt (count_if Task.completed m.tasks),
    pending := wrapInt (wrapInt m.tasks.length - wrapInt (count_if Task.completed m.tasks)),
    completionRate :=
      if wrapInt m.tasks.length > 0 then
        some (formatFixed1
          (Double.mul
            (Double.div (Double.ofInt (wrapInt (count_if Task.completed m.tasks)))
              (Double.ofInt (wrapInt m.tasks.length)))
            (Double.ofInt 100)))
      else none }

/-- The record that a line of the file stands for, if any: the line must be cut
by `','` into exactly three fields, the id field must be accepted by `stoi`, and
the description field must not be empty. -/
def acceptedRecord (line : Str) : Option Task :=
  match getlines ',' line with
  | [t0, t1, t2] =>
    match stoi t0 with
    | Except.ok taskId =>
      if t1 = [] then none
      else some { id := taskId, description := t1, completed := decide (t2 = ['1']) }
    | Except.error _ => none
  | _ => none

/-- No line of three fields has an id field that `stoi` rejects. -/
def IdsParse (lines : List Str) : Prop :=
  ∀ line ∈ lines, ∀ t0 t1 t2, getlines ',' line = [t0, t1, t2] → ∃ i, stoi t0 = Except.ok i

/-- Successive calls of `addTask`, one for each description read. -/
def addAll : TaskManager → IdCounter → List Str → TaskManager × IdCounter
  | m, c, [] => (m, c)
  | m, c, d :: ds => addAll (TaskManager.addTask m c d).1 (TaskManager.addTask m c d).2.1 ds

/-- The tasks that a run of `addAll` has appended to the store. -/
def createdBy (m : TaskManager) (c : IdCounter) (descs : List Str) : List Task :=
  (addAll m c descs).1.tasks.drop m.tasks.length

/-- Fresh tasks with consecutive ids from `k` on, one for each description. -/
def freshFrom : Int → List Str → List Task
  | _, [] => []
  | k, d :: ds => { id := k, description := d, completed := false } :: freshFrom (k + 1) ds

/-- An event in the life of the id counter and the store: a construction by
one of the two constructors of `Task`, a completion or a deletion.  A task
constructed with a non-empty description goes into the store (`addTask`,
`loadTasks`); one constructed with an empty description is dropped (the
`Task("")` that `fromString` returns for a line without three fields, and the
test on the description in `loadTasks`). -/
inductive Event where
  | create (desc : Str)
  | reconstruct (taskId : Int) (desc : Str) (comp : Bool)
  | complete (taskId : Int)
  | delete (taskId : Int)
  deriving DecidableEq, Repr

/-- The id that a reconstruction event carries is a value of type `int`. -/
def Event.idIsInt : Event → Bool
  | Event.reconstruct taskId _ _ => decide (InIntRange taskId)
  | _ => true

/-- The id counter and the store, together with the ids of all the tasks
constructed so far, deleted ones included. -/
structure History where
  counter : IdCounter
  store : TaskManager
  seen : List Int
  deriving DecidableEq, Repr

/-- The state at program start: `nextId = 1`, nothing stored, nothing seen. -/
def History.init : History := { counter := IdCounter.init, store := ⟨[]⟩, seen := [] }

/-- The effect of one event. -/
def History.step (h : History) : Event → History
  | Event.create desc =>
    { counter := (Task.create h.counter desc).2,
      store :=
        if desc = [] then h.store
        else ⟨h.store.tasks ++ [(Task.create h.counter desc).1]⟩,
      seen := h.seen ++ [(Task.create h.counter desc).1.id] }
  | Event.reconstruct taskId desc comp =>
    { counter := (Task.reconstruct h.counter taskId desc comp).2,
      store :=
        if desc = [] then h.store
        else ⟨h.store.tasks ++ [(Task.reconstruct h.counter taskId desc comp).1]⟩,
      seen := h.seen ++ [(Task.reconstruct h.counter taskId desc comp).1.id] }
  | Event.complete taskId =>
    { h with store := (TaskManager.markTaskCompleted h.store taskId).1 }
  | Event.delete taskId =>
    { h with store := (TaskManager.deleteTask h.store taskId).1 }

/-- The effect of a sequence of events. -/
def History.run (h : History) (es : List Event) : History := es.foldl History.step h

/-- An operation on the store chosen at the menu, with the value it reads. -/
inductive Op where
  | add (description : Str)
  | markCompleted (taskId : Int)
  | delete (taskId : Int)
  deriving DecidableEq, Repr

/-- The effect of one menu operation on the store and the id counter. -/
def applyOp (s : TaskManager × IdCounter) : Op → TaskManager × IdCounter
  | Op.add description =>
    ((TaskManager.addTask s.1 s.2 description).1, (TaskManager.addTask s.1 s.2 description).2.1)
  | Op.markCompleted taskId => ((TaskManager.markTaskCompleted s.1 taskId).1, s.2)
  | Op.delete taskId => ((TaskManager.deleteTask s.1 taskId).1, s.2)

/-- The effect of a sequence of menu operations. -/
def applyOps (s : TaskManager × IdCounter) (ops : List Op) : TaskManager × IdCounter :=
  ops.foldl applyOp s

/-- The description that `addTask` reads from the console: `cin.ignore()`
discards one pending character, then `getline(cin, description)` extracts the
characters up to the next `'\n'`, or up to the end of the input. -/
def readDescription (pending : Str) : Str :=
  (pending.drop 1).takeWhile (fun ch => ch != '\n')

/-- What the console supplies to one menu operation: the pending input from
which `addTask` reads its description, or the task id that `markTaskCompleted`
or `deleteTask` reads. -/
inductive MenuInput where
  | add (pending : Str)
  | markCompleted (taskId : Int)
  | delete (taskId : Int)
  deriving DecidableEq, Repr

/-- The operation that a menu input results in. -/
def MenuInput.toOp : MenuInput → Op
  | MenuInput.add pending => Op.add (readDescription pending)
  | MenuInput.markCompleted taskId => Op.markCompleted taskId
  | MenuInput.delete taskId => Op.delete taskId

/-- The store and the id counter that the program holds after its start
(`nextId = 1`, the constructor of `TaskManager` calling `loadTasks` on the file)
and the menu operations that the inputs result in. -/
def runProgram (file : Option Str) (inputs : List MenuInput) :
    Except Exn (TaskManager × IdCounter) :=
  match TaskManager.loadTasks ⟨[]⟩ IdCounter.init file with
  | Except.ok s => Except.ok (applyOps s (inputs.map MenuInput.toOp))
  | Except.error e => Except.error e

/-! ## Invariants and measures used in the proofs -/

/-- The counter is an `int`, and every task in the store has an `int` id and a
description that is a non-empty line (it holds no `'\n'`). -/
def LineStore (s : TaskManager × IdCounter) : Prop :=
  InIntRange s.2.nextId ∧
    ∀ t ∈ s.1.tasks, InIntRange t.id ∧ t.description ≠ [] ∧ '\n' ∉ t.description

/-- The magnitude of a `double` as a rational number. -/
def Double.magnitude (x : Double) : ℚ := (x.mant : ℚ) * (2 : ℚ) ^ x.exp

/-- The counter is an `int` and, as long as no increment has overflowed, it is
above every id seen. -/
def History.Inv (h : History) : Prop :=
  InIntRange h.counter.nextId ∧
    (h.counter.overflowed = false → ∀ i ∈ h.seen, i < h.counter.nextId)

/-- The counter is an `int` and, as long as no increment has overflowed, it is
above the id of every task in the store. -/
def StoreBelow (tasks : List Task) (c : IdCounter) : Prop :=
  InIntRange c.nextId ∧ (c.overflowed = false → ∀ t ∈ tasks, t.id < c.nextId)

/-- The ids in the store are pairwise distinct and below the counter, unless an
increment of the counter has overflowed. -/
def StoreUnique (s : TaskManager × IdCounter) : Prop :=
  InIntRange s.2.nextId ∧
    (s.2.overflowed = false →
      (s.1.tasks.map Task.id).Nodup ∧ ∀ t ∈ s.1.tasks, t.id < s.2.nextId)

/-! ## Lemmas: `getline` -/

theorem getlineLoop_delim (d : Char) (s : Str) (hs : d ∉ s) (cur rest : Str) :
    getlineLoop d cur (s ++ d :: rest) = (cur ++ s) :: getlineLoop d [] rest := by
  induction s generalizing cur with
  | nil => simp [getlineLoop]
  | cons c s ih =>
    have hc : c ≠ d := fun h => hs (by simp [h])
    have hs2 : d ∉ s := fun h => hs (by simp [h])
    simp [getlineLoop, hc, ih hs2]

theorem getlineLoop_last (d : Char) (s : Str) (hs : d ∉ s) (cur : Str)
    (hne : cur ++ s ≠ []) : getlineLoop d cur s = [cur ++ s] := by
  induction s generalizing cur with
  | nil => simpa [getlineLoop] using hne
  | cons c s ih =>
    have hc : c ≠ d := fun h => hs (by simp [h])
    have hs2 : d ∉ s := fun h => hs (by simp [h])
    simp [getlineLoop, hc, ih hs2]

/-! ## Lemmas: decimal rendering and parsing -/

theorem digitChar_isdigit (k : Nat) (hk : k < 10) :
    isdigit (Nat.digitChar k) = true ∧ (Nat.digitChar k).toNat - 48 = k := by
  interval_cases k <;> decide

theorem digitsValue_snoc (ds : Str) (c : Char) :
    digitsValue (ds ++ [c]) = 10 * digitsValue ds + (c.toNat - 48) := by
  simp [digitsValue, List.foldl_append]

theorem toDigitsCore_spec (fuel : Nat) : ∀ n : Nat, n < fuel →
    ∃ ds : Str, (∀ acc, Nat.toDigitsCore 10 fuel n acc = ds ++ acc) ∧ ds ≠ [] ∧
      (∀ c ∈ ds, isdigit c = true) ∧ digitsValue ds = n := by
  induction fuel with
  | zero => intro n h; omega
  | succ fuel ih =>
    intro n hn
    have hd := digitChar_isdigit (n % 10) (Nat.mod_lt _ (by decide))
    by_cases h0 : n / 10 = 0
    · refine ⟨[Nat.digitChar (n % 10)], ?_, by simp, ?_, ?_⟩
      · intro acc; simp [Nat.toDigitsCore, h0]
      · intro c hc; simp at hc; rw [hc]; exact hd.1
      · simp [digitsValue, hd.2]; omega
    · obtain ⟨ds, h1, h2, h3, h4⟩ := ih (n / 10) (by omega)
      refine ⟨ds ++ [Nat.digitChar (n % 10)], ?_, by simp, ?_, ?_⟩
      · intro acc; simp [Nat.toDigitsCore, h0, h1]
      · intro c hc
        rcases List.mem_append.1 hc with h | h
        · exact h3 c h
        · simp at h; rw [h]; exact hd.1
      · rw [digitsValue_snoc, h4, hd.2]; omega

theorem toDigits_spec (n : Nat) :
    Nat.toDigits 10 n ≠ [] ∧ (∀ c ∈ Nat.toDigits 10 n, isdigit c = true) ∧
      digitsValue (Nat.toDigits 10 n) = n := by
  obtain ⟨ds, h1, h2, h3, h4⟩ := toDigitsCore_spec (n + 1) n (Nat.lt_succ_self n)
  have h : Nat.toDigits 10 n = ds := by simp [Nat.toDigits, h1]
  rw [h]; exact ⟨h2, h3, h4⟩

theorem isdigit_props (c : Char) (h : isdigit c = true) :
    isspace c = false ∧ c ≠ '-' ∧ c ≠ '+' ∧ c ≠ ',' ∧ c ≠ '\n' := by
  simp only [isdigit, decide_eq_true_eq] at h
  refine ⟨?_, ?_, ?_, ?_, ?_⟩
  · simp only [isspace, Bool.or_eq_false_iff, decide_eq_false_iff_not]
    refine ⟨⟨⟨⟨⟨?_, ?_⟩, ?_⟩, ?_⟩, ?_⟩, ?_⟩ <;> (intro hc; subst hc; revert h; decide)
  all_goals (intro hc; subst hc; revert h; decide)

theorem takeWhile_all (p : Char → Bool) (l : Str) (h : ∀ c ∈ l, p c = true) :
    l.takeWhile p = l := by
  induction l with
  | nil => rfl
  | cons a l ih =>
    have ha : p a = true := h a (by simp)
    simp [List.takeWhile, ha, ih (fun c hc => h c (by simp [hc]))]

/-- Parsing the decimal rendering of an `int` gives the value back. -/
theorem stoi_to_string (i : Int) (h : InIntRange i) : stoi (to_string i) = Except.ok i := by
  obtain ⟨hlo, hhi⟩ := h
  cases i with
  | ofNat n =>
    obtain ⟨hne, hdig, hval⟩ := toDigits_spec n
    obtain ⟨c, cs, hcs⟩ := List.exists_cons_of_ne_nil hne
    have hc := isdigit_props c (hdig c (by simp [hcs]))
    have htw : (c :: cs).takeWhile isdigit = c :: cs :=
      takeWhile_all _ _ (by rw [← hcs]; exact hdig)
    have hv : digitsValue (c :: cs) = n := by rw [← hcs]; exact hval
    simp only [to_string, hcs, stoi]
    rw [List.dropWhile_cons_of_neg (by simp [hc.1])]
    have hm : (match c :: cs with
        | '-' :: r => (true, r)
        | '+' :: r => (false, r)
        | _ => (false, c :: cs)) = (false, c :: cs) := by
      split
      · rename_i heq; simp at heq; exact absurd heq.1 hc.2.1
      · rename_i heq; simp at heq; exact absurd heq.1 hc.2.2.1
      · rfl
    simp only [hm, htw, hv]
    simp
    exact ⟨hlo, hhi⟩
  | negSucc n =>
    obtain ⟨hne, hdig, hval⟩ := toDigits_spec (n + 1)
    have htw : (Nat.toDigits 10 (n + 1)).takeWhile isdigit = Nat.toDigits 10 (n + 1) :=
      takeWhile_all _ _ hdig
    simp only [to_string, stoi]
    rw [List.dropWhile_cons_of_neg (by decide)]
    simp only [htw, hval]
    rw [Int.negSucc_eq] at hlo hhi ⊢
    simp only [INT_MIN, INT_MAX] at hlo hhi ⊢
    simp only [hne, if_false, if_true, Int.ofNat_eq_coe, Nat.cast_add, Nat.cast_one]
    rw [if_pos ⟨hlo, hhi⟩]

theorem to_string_no_delim (i : Int) (d : Char) (hd : isdigit d = false) (hm : d ≠ '-') :
    d ∉ to_string i := by
  cases i with
  | ofNat n =>
    intro hmem
    have := (toDigits_spec n).2.1 d hmem
    simp [this] at hd
  | negSucc n =>
    intro hmem
    simp only [to_string, List.mem_cons] at hmem
    rcases hmem with h | h
    · exact hm h
    · have := (toDigits_spec (n + 1)).2.1 d h
      simp [this] at hd

theorem to_string_ne_nil (i : Int) : to_string i ≠ [] := by
  cases i with
  | ofNat n => exact (toDigits_spec n).1
  | negSucc n => simp [to_string]

/-! ## Lemmas: records and files -/

theorem toString_tokens (t : Task) (hdesc : ',' ∉ t.description) :
    getlines ',' (Task.toString t) =
      [to_string t.id, t.description, if t.completed then ['1'] else ['0']] := by
  have h1 : ',' ∉ to_string t.id := to_string_no_delim _ _ (by decide) (by decide)
  have h3 : ',' ∉ (if t.completed then ['1'] else ['0']) := by
    cases t.completed <;> decide
  have h3' : ([] : Str) ++ (if t.completed then ['1'] else ['0']) ≠ [] := by
    cases t.completed <;> decide
  have e : Task.toString t = to_string t.id ++ ',' ::
      (t.description ++ ',' :: (if t.completed then ['1'] else ['0'])) := by
    simp [Task.toString]
  rw [getlines, e, getlineLoop_delim ',' _ h1, getlineLoop_delim ',' _ hdesc,
    getlineLoop_last ',' _ h3 _ h3']
  simp

theorem fromString_toString_eq (c : IdCounter) (t : Task) (hid : InIntRange t.id)
    (hdesc : ',' ∉ t.description) :
    Task.fromString c (Task.toString t) =
      Except.ok (Task.reconstruct c t.id t.description t.completed) := by
  simp only [Task.fromString, toString_tokens t hdesc, stoi_to_string t.id hid]
  cases t.completed <;> simp

theorem reconstruct_fst (c : IdCounter) (t : Task) :
    (Task.reconstruct c t.id t.description t.completed).1 = t := rfl

theorem toString_no_newline (t : Task) (hdesc : '\n' ∉ t.description) :
    '\n' ∉ Task.toString t := by
  have h1 : '\n' ∉ to_string t.id := to_string_no_delim _ _ (by decide) (by decide)
  simp only [Task.toString, List.mem_append, not_or]
  refine ⟨⟨⟨⟨h1, by decide⟩, hdesc⟩, by decide⟩, ?_⟩
  cases t.completed <;> decide

theorem toString_ne_nil (t : Task) : Task.toString t ≠ [] := by
  simp [Task.toString, to_string_ne_nil]

theorem getlines_saveLoop (S : List Task) (h : ∀ t ∈ S, '\n' ∉ t.description) :
    getlines '\n' (TaskManager.saveLoop S) = S.map Task.toString := by
  induction S with
  | nil => simp [getlines, TaskManager.saveLoop, getlineLoop]
  | cons t ts ih =>
    have ht := toString_no_newline t (h t (by simp))
    have e : TaskManager.saveLoop (t :: ts) =
        Task.toString t ++ '\n' :: TaskManager.saveLoop ts := by
      simp [TaskManager.saveLoop]
    have ih' := ih (fun u hu => h u (by simp [hu]))
    rw [getlines] at ih' ⊢
    rw [e, getlineLoop_delim '\n' _ ht, ih']
    simp

theorem loadLoop_records (S : List Task)
    (h : ∀ t ∈ S, InIntRange t.id ∧ t.description ≠ [] ∧ ',' ∉ t.description) :
    ∀ (acc : List Task) (c : IdCounter),
      ∃ c', TaskManager.loadLoop (S.map Task.toString) acc c = Except.ok (acc ++ S, c') := by
  induction S with
  | nil => intro acc c; exact ⟨c, by simp [TaskManager.loadLoop]⟩
  | cons t ts ih =>
    intro acc c
    obtain ⟨hid, hne, hcomma⟩ := h t (by simp)
    obtain ⟨c', hc'⟩ := ih (fun u hu => h u (by simp [hu])) (acc ++ [t])
      (Task.reconstruct c t.id t.description t.completed).2
    refine ⟨c', ?_⟩
    simp only [List.map_cons, TaskManager.loadLoop, toString_ne_nil, if_false,
      fromString_toString_eq c t hid hcomma, reconstruct_fst, hne]
    rw [hc']; simp

theorem load_save_eq (S : List Task) (c : IdCounter)
    (h : ∀ t ∈ S, InIntRange t.id ∧ t.description ≠ [] ∧
      ',' ∉ t.description ∧ '\n' ∉ t.description) :
    ∃ c', TaskManager.loadTasks ⟨[]⟩ c (some (TaskManager.saveTasks ⟨S⟩)) =
      Except.ok (⟨S⟩, c') := by
  obtain ⟨c', hc'⟩ := loadLoop_records S (fun t ht => ⟨(h t ht).1, (h t ht).2.1, (h t ht).2.2.1⟩) [] c
  refine ⟨c', ?_⟩
  simp only [TaskManager.loadTasks, TaskManager.saveTasks,
    getlines_saveLoop S (fun t ht => (h t ht).2.2.2), hc']
  simp

/-! ## Theorems -/

/-- C2 (record round trip). For every task whose id is an `int` and whose
description contains no `','`, whichever constructor built it and whatever the
description otherwise is, `Task::fromString(t.toString())` returns a task with
the same id, the same description and the same completed flag. -/
theorem record_round_trip (c : IdCounter) (t : Task) (hid : InIntRange t.id)
    (hdesc : ',' ∉ t.description) :
    ∃ c', Task.fromString c (Task.toString t) = Except.ok (t, c') :=
  ⟨(Task.reconstruct c t.id t.description t.completed).2,
    fromString_toString_eq c t hid hdesc⟩

/-- Witness of `record_round_trip` at the task built by
`Task(7, "Buy milk", true)`. -/
theorem record_round_trip_witness :
    InIntRange (7 : Int) ∧ ',' ∉ "Buy milk".toList ∧
      ∃ c', Task.fromString IdCounter.init
        (Task.toString (Task.reconstruct IdCounter.init 7 "Buy milk".toList true).1) =
        Except.ok ((Task.reconstruct IdCounter.init 7 "Buy milk".toList true).1, c') :=
  ⟨by decide, by decide,
    record_round_trip IdCounter.init
      (Task.reconstruct IdCounter.init 7 "Buy milk".toList true).1 (by decide) (by decide)⟩

/-! ## Lemmas: lookup, erase and update by position -/

theorem find_if_none (p : Task → Bool) (l : List Task) (h : ∀ t ∈ l, p t = false) :
    find_if p l = none := by
  induction l with
  | nil => rfl
  | cons a l ih =>
    have ha : p a = false := h a (by simp)
    simp [find_if, ha, ih (fun t ht => h t (by simp [ht]))]

theorem find_if_split (p : Task → Bool) (l : List Task) (h : ∃ t ∈ l, p t = true) :
    ∃ l1 t l2, l = l1 ++ t :: l2 ∧ (∀ u ∈ l1, p u = false) ∧ p t = true ∧
      find_if p l = some l1.length := by
  induction l with
  | nil => obtain ⟨t, ht, _⟩ := h; simp at ht
  | cons a l ih =>
    by_cases ha : p a = true
    · exact ⟨[], a, l, rfl, by simp, ha, by simp [find_if, ha]⟩
    · have h' : ∃ t ∈ l, p t = true := by
        obtain ⟨t, ht, hpt⟩ := h
        rcases List.mem_cons.1 ht with e | e
        · subst e; exact absurd hpt ha
        · exact ⟨t, e, hpt⟩
      obtain ⟨l1, t, l2, e, h1, h2, h3⟩ := ih h'
      refine ⟨a :: l1, t, l2, by simp [e], ?_, h2, ?_⟩
      · intro u hu
        rcases List.mem_cons.1 hu with e' | e'
        · subst e'; simpa using ha
        · exact h1 u e'
      · simp [find_if, ha, h3]

theorem eraseAt_split (l1 : List Task) (t : Task) (l2 : List Task) :
    eraseAt (l1 ++ t :: l2) l1.length = l1 ++ l2 := by
  induction l1 with
  | nil => rfl
  | cons a l1 ih => simp [eraseAt, ih]

theorem get?_split (l1 : List Task) (t : Task) (l2 : List Task) :
    (l1 ++ t :: l2).get? l1.length = some t := by
  induction l1 with
  | nil => rfl
  | cons a l1 ih => simpa using ih

theorem find?_split (p : Task → Bool) (l1 : List Task) (t : Task) (l2 : List Task)
    (h1 : ∀ u ∈ l1, p u = false) (h2 : p t = true) :
    (l1 ++ t :: l2).find? p = some t := by
  induction l1 with
  | nil => simp [List.find?, h2]
  | cons a l1 ih =>
    have ha : p a = false := h1 a (by simp)
    have ih' := ih (fun u hu => h1 u (by simp [hu]))
    rw [List.cons_append, List.find?_cons, ha]
    exact ih'

theorem find?_sound (p : Task → Bool) (l : List Task) (t : Task)
    (h : l.find? p = some t) : t ∈ l ∧ p t = true := by
  induction l with
  | nil => simp at h
  | cons a l ih =>
    rw [List.find?_cons] at h
    cases hpa : p a with
    | true =>
      rw [hpa] at h
      have e : a = t := Option.some.inj h
      subst e
      exact ⟨by simp, hpa⟩
    | false =>
      rw [hpa] at h
      exact ⟨by simp [(ih h).1], (ih h).2⟩

/-! ## Theorems: delete and mark-completed -/

/-- C7 (delete of a present id). When some task of the store has the id read,
`deleteTask` reports "Task deleted successfully!" and the store becomes the old
sequence with exactly one task removed, the first one that has this id: the
tasks before it and the tasks after it stay, unchanged and in the same order,
and the length decreases by exactly one. -/
theorem delete_present (m : TaskManager) (taskId : Int)
    (h : ∃ t ∈ m.tasks, t.id = taskId) :
    ∃ l1 t l2, m.tasks = l1 ++ t :: l2 ∧ t.id = taskId ∧ (∀ u ∈ l1, u.id ≠ taskId) ∧
      TaskManager.deleteTask m taskId = (⟨l1 ++ l2⟩, Outcome.taskDeleted) ∧
      (TaskManager.deleteTask m taskId).1.tasks.length + 1 = m.tasks.length := by
  obtain ⟨l1, t, l2, e, h1, h2, h3⟩ :=
    find_if_split (fun t => decide (t.id = taskId)) m.tasks
      (by obtain ⟨t, ht, hid⟩ := h; exact ⟨t, ht, by simpa using hid⟩)
  have hne : m.tasks ≠ [] := by rw [e]; simp
  have hdel : TaskManager.deleteTask m taskId = (⟨l1 ++ l2⟩, Outcome.taskDeleted) := by
    simp only [TaskManager.deleteTask, hne, if_false, h3]
    rw [e, eraseAt_split]
  refine ⟨l1, t, l2, e, by simpa using h2, ?_, hdel, ?_⟩
  · intro u hu; simpa using h1 u hu
  · rw [hdel, e]; simp; omega

/-- Witness of `delete_present`: deleting id 2 from a store of three tasks. -/
theorem delete_present_witness :
    ∃ l1 t l2, ([⟨1, ['a'], false⟩, ⟨2, ['b'], true⟩, ⟨3, ['c'], false⟩] : List Task) =
        l1 ++ t :: l2 ∧ t.id = 2 ∧ (∀ u ∈ l1, u.id ≠ 2) ∧
      TaskManager.deleteTask ⟨[⟨1, ['a'], false⟩, ⟨2, ['b'], true⟩, ⟨3, ['c'], false⟩]⟩ 2 =
        (⟨l1 ++ l2⟩, Outcome.taskDeleted) ∧
      (TaskManager.deleteTask
        ⟨[⟨1, ['a'], false⟩, ⟨2, ['b'], true⟩, ⟨3, ['c'], false⟩]⟩ 2).1.tasks.length + 1 = 3 :=
  delete_present ⟨[⟨1, ['a'], false⟩, ⟨2, ['b'], true⟩, ⟨3, ['c'], false⟩]⟩ 2
    ⟨⟨2, ['b'], true⟩, by decide, rfl⟩

/-- C8, as stated, fails on the empty store: `deleteTask` returns at its
emptiness guard with "No tasks available!", which is not the
"Task with ID ... not found!" outcome. -/
theorem delete_absent_counterexample :
    (∀ t ∈ (⟨[]⟩ : TaskManager).tasks, t.id ≠ 1) ∧
      TaskManager.deleteTask ⟨[]⟩ 1 = (⟨[]⟩, Outcome.noTasksAvailable) ∧
      Outcome.noTasksAvailable ≠ Outcome.notFound 1 := by
  decide

/-- C8 (delete of an absent id, amended). When no task of the store has the id
read, `deleteTask` leaves the task sequence exactly unchanged; on a non-empty
store it reports "Task with ID <taskId> not found!", and on the empty store it
reports "No tasks available!". -/
theorem delete_absent (m : TaskManager) (taskId : Int)
    (h : ∀ t ∈ m.tasks, t.id ≠ taskId) :
    (TaskManager.deleteTask m taskId).1 = m ∧
      (m.tasks ≠ [] → (TaskManager.deleteTask m taskId).2 = Outcome.notFound taskId) ∧
      (m.tasks = [] → (TaskManager.deleteTask m taskId).2 = Outcome.noTasksAvailable) := by
  have hf : find_if (fun t => decide (t.id = taskId)) m.tasks = none :=
    find_if_none _ _ (fun t ht => by simpa using h t ht)
  by_cases he : m.tasks = []
  · simp [TaskManager.deleteTask, he]
  · simp [TaskManager.deleteTask, he, hf]

/-- Witness of `delete_absent`: deleting id 9 from a store that holds ids 1 and 2. -/
theorem delete_absent_witness :
    (TaskManager.deleteTask ⟨[⟨1, ['a'], false⟩, ⟨2, ['b'], true⟩]⟩ 9).1 =
        ⟨[⟨1, ['a'], false⟩, ⟨2, ['b'], true⟩]⟩ ∧
      (([⟨1, ['a'], false⟩, ⟨2, ['b'], true⟩] : List Task) ≠ [] →
        (TaskManager.deleteTask ⟨[⟨1, ['a'], false⟩, ⟨2, ['b'], true⟩]⟩ 9).2 =
          Outcome.notFound 9) ∧
      (([⟨1, ['a'], false⟩, ⟨2, ['b'], true⟩] : List Task) = [] →
        (TaskManager.deleteTask ⟨[⟨1, ['a'], false⟩, ⟨2, ['b'], true⟩]⟩ 9).2 =
          Outcome.noTasksAvailable) :=
  delete_absent ⟨[⟨1, ['a'], false⟩, ⟨2, ['b'], true⟩]⟩ 9 (by decide)

/-- C9 (mark-completed on an already-completed task). When the task that the
store holds for the id read (the one the lookup by id returns) has
`completed = true`, `markTaskCompleted` leaves the whole store unchanged and
reports "Task is already completed!", an outcome different from
"Task marked as completed!" and from "Task with ID <taskId> not found!". -/
theorem mark_completed_already (m : TaskManager) (taskId : Int) (t : Task)
    (hfind : m.tasks.find? (fun u => decide (u.id = taskId)) = some t)
    (hdone : t.completed = true) :
    TaskManager.markTaskCompleted m taskId = (m, Outcome.alreadyCompleted) ∧
      Outcome.alreadyCompleted ≠ Outcome.markedCompleted ∧
      Outcome.alreadyCompleted ≠ Outcome.notFound taskId := by
  refine ⟨?_, by decide, by intro h; cases h⟩
  have hex : ∃ u ∈ m.tasks, (fun u : Task => decide (u.id = taskId)) u = true :=
    ⟨t, find?_sound _ _ _ hfind⟩
  obtain ⟨l1, u, l2, e, h1, h2, h3⟩ := find_if_split _ m.tasks hex
  have hu : u = t := by
    have := find?_split _ l1 u l2 h1 h2
    rw [← e, hfind] at this
    exact (Option.some.inj this).symm
  have hne : m.tasks ≠ [] := by rw [e]; simp
  have hget : m.tasks.get? l1.length = some t := by rw [e, get?_split, hu]
  simp only [TaskManager.markTaskCompleted, hne, if_false, h3, hget]
  simp [hdone]

/-- Witness of `mark_completed_already`: id 2 is held by a completed task. -/
theorem mark_completed_already_witness :
    TaskManager.markTaskCompleted ⟨[⟨1, ['a'], false⟩, ⟨2, ['b'], true⟩]⟩ 2 =
        (⟨[⟨1, ['a'], false⟩, ⟨2, ['b'], true⟩]⟩, Outcome.alreadyCompleted) ∧
      Outcome.alreadyCompleted ≠ Outcome.markedCompleted ∧
      Outcome.alreadyCompleted ≠ Outcome.notFound 2 :=
  mark_completed_already ⟨[⟨1, ['a'], false⟩, ⟨2, ['b'], true⟩]⟩ 2 ⟨2, ['b'], true⟩
    (by decide) rfl

/-! ## Lemmas: the id counter -/

theorem wrapInt_of_range (x : Int) (h1 : INT_MIN ≤ x) (h2 : x ≤ INT_MAX) : wrapInt x = x := by
  simp only [INT_MIN, INT_MAX] at h1 h2
  simp only [wrapInt]; omega

theorem wrapInt_range (x : Int) : InIntRange (wrapInt x) := by
  simp only [InIntRange, INT_MIN, INT_MAX, wrapInt]; omega

theorem create_counter (c : IdCounter) (d : Str) (hlo : INT_MIN ≤ c.nextId)
    (hno : (Task.create c d).2.overflowed = false) :
    c.overflowed = false ∧ (Task.create c d).2.nextId = c.nextId + 1 := by
  simp only [Task.create, Bool.or_eq_false_iff, decide_eq_false_iff_not, not_lt] at hno ⊢
  refine ⟨hno.1, wrapInt_of_range _ ?_ hno.2⟩
  simp only [INT_MIN] at hlo ⊢; omega

theorem create_range (c : IdCounter) (d : Str) : InIntRange (Task.create c d).2.nextId :=
  wrapInt_range _

theorem reconstruct_counter (c : IdCounter) (i : Int) (d : Str) (b : Bool)
    (hi : InIntRange i) (hno : (Task.reconstruct c i d b).2.overflowed = false) :
    c.overflowed = false ∧ (Task.reconstruct c i d b).2.nextId = max c.nextId (i + 1) := by
  simp only [Task.reconstruct] at hno ⊢
  by_cases hge : i ≥ c.nextId
  · simp only [hge, if_true, Bool.or_eq_false_iff, decide_eq_false_iff_not, not_lt] at hno ⊢
    refine ⟨hno.1, ?_⟩
    rw [wrapInt_of_range _ (by have := hi.1; simp only [INT_MIN] at this ⊢; omega) hno.2]
    omega
  · simp only [hge, if_false] at hno ⊢
    exact ⟨hno, by omega⟩

theorem reconstruct_range (c : IdCounter) (i : Int) (d : Str) (b : Bool)
    (hc : InIntRange c.nextId) : InIntRange (Task.reconstruct c i d b).2.nextId := by
  simp only [Task.reconstruct]
  split
  · exact wrapInt_range _
  · exact hc

theorem addAll_eq (descs : List Str) : ∀ (m : TaskManager) (c : IdCounter),
    (∀ d ∈ descs, d ≠ []) → INT_MIN ≤ c.nextId → c.nextId + descs.length ≤ INT_MAX →
    addAll m c descs =
      (⟨m.tasks ++ freshFrom c.nextId descs⟩, ⟨c.nextId + descs.length, c.overflowed⟩) := by
  induction descs with
  | nil => intro m c _ _ _; simp [addAll, freshFrom]
  | cons d ds ih =>
    intro m c hne hlo hhi
    have hd : d ≠ [] := hne d (by simp)
    simp only [List.length_cons, Nat.cast_add, Nat.cast_one] at hhi
    have hw : wrapInt (c.nextId + 1) = c.nextId + 1 :=
      wrapInt_of_range _ (by simp only [INT_MIN] at hlo ⊢; omega) (by omega)
    have hfl : decide (INT_MAX < c.nextId + 1) = false := by
      simp only [decide_eq_false_iff_not, not_lt]; omega
    have hstep : TaskManager.addTask m c d =
        (⟨m.tasks ++ [⟨c.nextId, d, false⟩]⟩, ⟨c.nextId + 1, c.overflowed⟩,
          Outcome.taskAdded) := by
      simp [TaskManager.addTask, hd, Task.create, hw, hfl]
    rw [addAll, hstep]
    rw [ih _ _ (fun x hx => hne x (by simp [hx])) (by simp only [INT_MIN] at hlo ⊢; omega)
      (by simp only []; omega)]
    simp only [freshFrom, List.append_assoc, List.singleton_append, List.length_cons,
      Nat.cast_add, Nat.cast_one, Prod.mk.injEq, IdCounter.mk.injEq, and_true, true_and]
    omega

theorem freshFrom_descriptions (descs : List Str) : ∀ k : Int,
    (freshFrom k descs).map Task.description = descs := by
  induction descs with
  | nil => intro k; rfl
  | cons d ds ih => intro k; simp [freshFrom, ih]

theorem freshFrom_lower (descs : List Str) : ∀ (k : Int), ∀ t ∈ freshFrom k descs, k ≤ t.id := by
  induction descs with
  | nil => intro k t ht; simp [freshFrom] at ht
  | cons d ds ih =>
    intro k t ht
    simp only [freshFrom, List.mem_cons] at ht
    rcases ht with e | e
    · subst e; simp
    · have := ih (k + 1) t e; omega

theorem freshFrom_increasing (descs : List Str) : ∀ k : Int,
    (freshFrom k descs).Pairwise (fun a b => a.id < b.id) := by
  induction descs with
  | nil => intro k; simp [freshFrom]
  | cons d ds ih =>
    intro k
    simp only [freshFrom, List.pairwise_cons]
    refine ⟨?_, ih (k + 1)⟩
    intro t ht
    have := freshFrom_lower ds (k + 1) t ht
    show k < t.id
    omega

/-! ## Theorems: ids of added tasks -/

/-- C3, as stated, fails: from the counter value `INT_MAX` two calls of
`addTask` with non-empty descriptions create tasks with ids `2147483647` and
`-2147483648`, in this order, so the ids are not increasing in creation
order. -/
theorem add_ids_counterexample :
    (createdBy ⟨[]⟩ ⟨2147483647, false⟩ [['a'], ['b']]).map Task.id =
        [2147483647, -2147483648] ∧
      ¬ ((createdBy ⟨[]⟩ ⟨2147483647, false⟩ [['a'], ['b']]).Pairwise
        (fun a b => a.id < b.id)) := by
  decide

/-- C3 (ids of added tasks, amended). For every store, every counter value of
type `int` and every sequence of non-empty descriptions such that the counter
stays within `int` (counter + number of adds ≤ `INT_MAX`), the successive
`addTask` calls append one task per description, with these descriptions in
order, and the ids of the created tasks are strictly increasing in creation
order, hence pairwise distinct. -/
theorem add_ids_increasing (m : TaskManager) (c : IdCounter) (descs : List Str)
    (hne : ∀ d ∈ descs, d ≠ []) (hlo : INT_MIN ≤ c.nextId)
    (hhi : c.nextId + descs.length ≤ INT_MAX) :
    (addAll m c descs).1.tasks = m.tasks ++ createdBy m c descs ∧
      (createdBy m c descs).map Task.description = descs ∧
      (createdBy m c descs).Pairwise (fun a b => a.id < b.id) ∧
      ((createdBy m c descs).map Task.id).Nodup := by
  have hc : createdBy m c descs = freshFrom c.nextId descs := by
    simp [createdBy, addAll_eq descs m c hne hlo hhi]
  have hinc := freshFrom_increasing descs c.nextId
  refine ⟨by rw [hc, addAll_eq descs m c hne hlo hhi], by rw [hc, freshFrom_descriptions],
    by rw [hc]; exact hinc, ?_⟩
  rw [hc, List.Nodup, List.pairwise_map]
  exact hinc.imp (fun h => ne_of_lt h)

/-- Witness of `add_ids_increasing`: three adds from the initial counter on a
store that already holds one task. -/
theorem add_ids_increasing_witness :
    (addAll ⟨[⟨0, ['z'], true⟩]⟩ IdCounter.init [['a'], ['b'], ['c']]).1.tasks =
        [⟨0, ['z'], true⟩] ++ createdBy ⟨[⟨0, ['z'], true⟩]⟩ IdCounter.init [['a'], ['b'], ['c']] ∧
      (createdBy ⟨[⟨0, ['z'], true⟩]⟩ IdCounter.init [['a'], ['b'], ['c']]).map
        Task.description = [['a'], ['b'], ['c']] ∧
      (createdBy ⟨[⟨0, ['z'], true⟩]⟩ IdCounter.init [['a'], ['b'], ['c']]).Pairwise
        (fun a b => a.id < b.id) ∧
      ((createdBy ⟨[⟨0, ['z'], true⟩]⟩ IdCounter.init [['a'], ['b'], ['c']]).map
        Task.id).Nodup :=
  add_ids_increasing ⟨[⟨0, ['z'], true⟩]⟩ IdCounter.init [['a'], ['b'], ['c']]
    (by decide) (by decide) (by decide)

/-! ## Lemmas: the counter invariant along a history -/

theorem History.inv_init : History.init.Inv := by
  refine ⟨by decide, ?_⟩
  intro _ i hi
  simp [History.init] at hi

theorem History.inv_step (h : History) (e : Event) (hty : e.idIsInt = true) (hinv : h.Inv) :
    (h.step e).Inv := by
  obtain ⟨hr, hs⟩ := hinv
  cases e with
  | create desc =>
    refine ⟨create_range h.counter desc, ?_⟩
    intro hno i hi
    obtain ⟨h1, h2⟩ := create_counter h.counter desc hr.1 hno
    simp only [History.step, List.mem_append, List.mem_singleton] at hi ⊢
    rw [h2]
    rcases hi with hi | hi
    · have := hs h1 i hi; omega
    · rw [hi]; simp [Task.create]
  | reconstruct taskId desc comp =>
    have hi' : InIntRange taskId := by simpa [Event.idIsInt] using hty
    refine ⟨reconstruct_range h.counter taskId desc comp hr, ?_⟩
    intro hno i hi
    obtain ⟨h1, h2⟩ := reconstruct_counter h.counter taskId desc comp hi' hno
    simp only [History.step, List.mem_append, List.mem_singleton] at hi ⊢
    rw [h2]
    rcases hi with hi | hi
    · have := hs h1 i hi; omega
    · rw [hi]; simp only [Task.reconstruct]; omega
  | complete taskId => exact ⟨hr, hs⟩
  | delete taskId => exact ⟨hr, hs⟩

theorem History.inv_run (es : List Event) : ∀ (h : History),
    (∀ e ∈ es, e.idIsInt = true) → h.Inv → (h.run es).Inv := by
  induction es with
  | nil => intro h _ hinv; exact hinv
  | cons e es ih =>
    intro h hty hinv
    exact ih (h.step e) (fun x hx => hty x (by simp [hx]))
      (History.inv_step h e (hty e (by simp)) hinv)

/-! ## Theorems: the counter invariant -/

/-- C4, as stated, fails at the largest `int`. Reconstructing a task with id
`2147483647` from the initial counter leaves the counter at `-2147483648`:
not above the id just seen, and not `max(1, 2147483647 + 1)`. And after the
reconstructions with ids `-5`, `2147483647`, `-7` and one fresh creation, the
next fresh task receives the id `-5`, which was seen before. -/
theorem counter_invariant_counterexample :
    (History.init.run [Event.reconstruct 2147483647 ['x'] false]).seen = [2147483647] ∧
      (History.init.run [Event.reconstruct 2147483647 ['x'] false]).counter.nextId =
        -2147483648 ∧
      ¬ (∀ i ∈ (History.init.run [Event.reconstruct 2147483647 ['x'] false]).seen,
        i < (History.init.run [Event.reconstruct 2147483647 ['x'] false]).counter.nextId) ∧
      (Task.reconstruct IdCounter.init 2147483647 ['x'] false).2.nextId ≠
        max IdCounter.init.nextId (2147483647 + 1) ∧
      (Task.create (History.init.run [Event.reconstruct (-5) ['a'] false,
          Event.reconstruct 2147483647 ['b'] false, Event.reconstruct (-7) ['c'] false,
          Event.create ['d']]).counter ['e']).1.id ∈
        (History.init.run [Event.reconstruct (-5) ['a'] false,
          Event.reconstruct 2147483647 ['b'] false, Event.reconstruct (-7) ['c'] false,
          Event.create ['d']]).seen := by
  decide

/-- C4 (counter invariant, amended). In every state reached from the initial
counter value 1 by a sequence of fresh creations, reconstructions (any id of
type `int`), completions and deletions during which no increment of the counter
has overflowed `int`: `nextId` is strictly greater than the id of every task
constructed so far, deleted ones included; reconstructing a task with an id
`i < INT_MAX` leaves the counter at `max(previous counter, i + 1)`; and the
task a fresh creation would build has an id different from every id seen. -/
theorem counter_invariant (es : List Event) (hty : ∀ e ∈ es, e.idIsInt = true)
    (hno : (History.init.run es).counter.overflowed = false) :
    (∀ i ∈ (History.init.run es).seen, i < (History.init.run es).counter.nextId) ∧
      (∀ (i : Int) (d : Str) (b : Bool), InIntRange i → i < INT_MAX →
        (Task.reconstruct (History.init.run es).counter i d b).2.nextId =
          max (History.init.run es).counter.nextId (i + 1)) ∧
      (∀ d : Str, (Task.create (History.init.run es).counter d).1.id ∉
        (History.init.run es).seen) := by
  obtain ⟨hr, hs⟩ := History.inv_run es History.init hty History.inv_init
  refine ⟨hs hno, ?_, ?_⟩
  · intro i d b hi hlt
    have hfl : (Task.reconstruct (History.init.run es).counter i d b).2.overflowed = false := by
      simp only [Task.reconstruct]
      split
      · simp only [hno, Bool.false_or, decide_eq_false_iff_not, not_lt]; omega
      · exact hno
    exact (reconstruct_counter _ i d b hi hfl).2
  · intro d hmem
    have := hs hno _ hmem
    simp [Task.create] at this

/-- Witness of `counter_invariant`: a history with both kinds of construction,
a completion and a deletion. -/
theorem counter_invariant_witness :
    (∀ i ∈ (History.init.run [Event.reconstruct 5 ['a'] true, Event.create ['b'],
        Event.delete 5, Event.complete 6, Event.reconstruct 2 ['c'] false]).seen,
        i < (History.init.run [Event.reconstruct 5 ['a'] true, Event.create ['b'],
          Event.delete 5, Event.complete 6, Event.reconstruct 2 ['c'] false]).counter.nextId) ∧
      (∀ (i : Int) (d : Str) (b : Bool), InIntRange i → i < INT_MAX →
        (Task.reconstruct (History.init.run [Event.reconstruct 5 ['a'] true, Event.create ['b'],
          Event.delete 5, Event.complete 6, Event.reconstruct 2 ['c'] false]).counter
            i d b).2.nextId =
          max (History.init.run [Event.reconstruct 5 ['a'] true, Event.create ['b'],
            Event.delete 5, Event.complete 6, Event.reconstruct 2 ['c'] false]).counter.nextId
            (i + 1)) ∧
      (∀ d : Str, (Task.create (History.init.run [Event.reconstruct 5 ['a'] true,
          Event.create ['b'], Event.delete 5, Event.complete 6,
          Event.reconstruct 2 ['c'] false]).counter d).1.id ∉
        (History.init.run [Event.reconstruct 5 ['a'] true, Event.create ['b'],
          Event.delete 5, Event.complete 6, Event.reconstruct 2 ['c'] false]).seen) :=
  counter_invariant [Event.reconstruct 5 ['a'] true, Event.create ['b'],
    Event.delete 5, Event.complete 6, Event.reconstruct 2 ['c'] false] (by decide) (by decide)

/-! ## Lemmas: ids in the store along load and the menu operations -/

theorem stoi_range (s : Str) (v : Int) (h : stoi s = Except.ok v) : InIntRange v := by
  simp only [stoi] at h
  split_ifs at h
  all_goals
    simp only [Except.ok.injEq] at h
    subst h
    unfold InIntRange
    assumption

theorem fromString_inv (c : IdCounter) (line : Str) (r : Task × IdCounter)
    (h : Task.fromString c line = Except.ok r) (hc : InIntRange c.nextId) :
    InIntRange r.2.nextId ∧
      (r.2.overflowed = false →
        c.overflowed = false ∧ c.nextId ≤ r.2.nextId ∧ r.1.id < r.2.nextId) := by
  simp only [Task.fromString] at h
  split at h
  · rename_i t0 t1 t2 _
    split at h
    · rename_i taskId hst
      have hi := stoi_range _ _ hst
      cases h
      refine ⟨reconstruct_range c taskId t1 _ hc, ?_⟩
      intro hno
      obtain ⟨h1, h2⟩ := reconstruct_counter c taskId t1 _ hi hno
      refine ⟨h1, ?_, ?_⟩
      · rw [h2]; omega
      · rw [h2]; simp only [Task.reconstruct]; omega
    · cases h
  · cases h
    refine ⟨create_range c [], ?_⟩
    intro hno
    obtain ⟨h1, h2⟩ := create_counter c [] hc.1 hno
    refine ⟨h1, ?_, ?_⟩
    · rw [h2]; omega
    · rw [h2]; simp only [Task.create]; omega

theorem storeBelow_push (tasks : List Task) (c : IdCounter) (r : Task × IdCounter)
    (hr : InIntRange r.2.nextId)
    (hstep : r.2.overflowed = false →
      c.overflowed = false ∧ c.nextId ≤ r.2.nextId ∧ r.1.id < r.2.nextId)
    (h : StoreBelow tasks c) :
    StoreBelow tasks r.2 ∧ StoreBelow (tasks ++ [r.1]) r.2 := by
  refine ⟨⟨hr, ?_⟩, ⟨hr, ?_⟩⟩
  · intro hno t ht
    obtain ⟨h1, h2, _⟩ := hstep hno
    have := h.2 h1 t ht
    omega
  · intro hno t ht
    obtain ⟨h1, h2, h3⟩ := hstep hno
    rcases List.mem_append.1 ht with e | e
    · have := h.2 h1 t e; omega
    · simp only [List.mem_singleton] at e; rw [e]; exact h3

theorem loadLoop_inv (lines : List Str) : ∀ (tasks : List Task) (c : IdCounter)
    (r : List Task × IdCounter), TaskManager.loadLoop lines tasks c = Except.ok r →
    StoreBelow tasks c → StoreBelow r.1 r.2 := by
  induction lines with
  | nil =>
    intro tasks c r h hinv
    simp only [TaskManager.loadLoop] at h
    cases h; exact hinv
  | cons line rest ih =>
    intro tasks c r h hinv
    simp only [TaskManager.loadLoop] at h
    split at h
    · exact ih _ _ _ h hinv
    · split at h
      · rename_i q hq
        obtain ⟨hr, hstep⟩ := fromString_inv c line q hq hinv.1
        obtain ⟨k1, k2⟩ := storeBelow_push tasks c q hr hstep hinv
        split at h
        · exact ih _ _ _ h k1
        · exact ih _ _ _ h k2
      · cases h

theorem updateAt_ids (l : List Task) : ∀ i : Nat,
    (updateAt Task.markCompleted l i).map Task.id = l.map Task.id := by
  induction l with
  | nil => intro i; rfl
  | cons a l ih =>
    intro i
    cases i with
    | zero => simp [updateAt, Task.markCompleted]
    | succ n => simp [updateAt, ih n]

theorem eraseAt_sublist (l : List Task) : ∀ i : Nat, (eraseAt l i).Sublist l := by
  induction l with
  | nil => intro i; simp [eraseAt]
  | cons a l ih =>
    intro i
    cases i with
    | zero => simp [eraseAt]
    | succ n => simpa [eraseAt] using ih n

theorem markTaskCompleted_ids (m : TaskManager) (taskId : Int) :
    (TaskManager.markTaskCompleted m taskId).1.tasks.map Task.id = m.tasks.map Task.id := by
  simp only [TaskManager.markTaskCompleted]
  split
  · rfl
  · split
    · split
      · rfl
      · exact updateAt_ids _ _
    · rfl

theorem deleteTask_sublist (m : TaskManager) (taskId : Int) :
    (TaskManager.deleteTask m taskId).1.tasks.Sublist m.tasks := by
  simp only [TaskManager.deleteTask]
  split
  · exact List.Sublist.refl _
  · split
    · exact eraseAt_sublist _ _
    · exact List.Sublist.refl _

theorem applyOp_inv (s : TaskManager × IdCounter) (op : Op) (h : StoreUnique s) :
    StoreUnique (applyOp s op) := by
  obtain ⟨hr, hs⟩ := h
  cases op with
  | add description =>
    by_cases hd : description = []
    · simpa [applyOp, TaskManager.addTask, hd, StoreUnique] using And.intro hr hs
    · have e1 : (applyOp s (Op.add description)).1.tasks =
          s.1.tasks ++ [(Task.create s.2 description).1] := by
        simp [applyOp, TaskManager.addTask, hd]
      have e2 : (applyOp s (Op.add description)).2 = (Task.create s.2 description).2 := by
        simp [applyOp, TaskManager.addTask, hd]
      refine ⟨by rw [e2]; exact create_range _ _, ?_⟩
      intro hno
      rw [e2] at hno
      obtain ⟨h1, h2⟩ := create_counter s.2 description hr.1 hno
      obtain ⟨hnd, hlt⟩ := hs h1
      rw [e1, e2, h2]
      refine ⟨?_, ?_⟩
      · rw [List.map_append, List.nodup_append]
        refine ⟨hnd, by simp, ?_⟩
        intro i hi hi'
        simp only [List.map_cons, List.map_nil, List.mem_singleton] at hi'
        obtain ⟨t, ht, e⟩ := List.mem_map.1 hi
        have := hlt t ht
        rw [e, hi'] at this
        simp [Task.create] at this
      · intro t ht
        rcases List.mem_append.1 ht with e | e
        · have := hlt t e; omega
        · simp only [List.mem_singleton] at e; rw [e]; simp [Task.create]
  | markCompleted taskId =>
    refine ⟨hr, ?_⟩
    intro hno
    obtain ⟨hnd, hlt⟩ := hs hno
    refine ⟨?_, ?_⟩
    · show ((TaskManager.markTaskCompleted s.1 taskId).1.tasks.map Task.id).Nodup
      rw [markTaskCompleted_ids]; exact hnd
    · intro t ht
      have hmem : t.id ∈ (TaskManager.markTaskCompleted s.1 taskId).1.tasks.map Task.id :=
        List.mem_map.2 ⟨t, ht, rfl⟩
      rw [markTaskCompleted_ids] at hmem
      obtain ⟨u, hu, e⟩ := List.mem_map.1 hmem
      have := hlt u hu
      show t.id < s.2.nextId
      omega
  | delete taskId =>
    refine ⟨hr, ?_⟩
    intro hno
    obtain ⟨hnd, hlt⟩ := hs hno
    have hsub := deleteTask_sublist s.1 taskId
    exact ⟨(hsub.map Task.id).nodup hnd, fun t ht => hlt t (hsub.subset ht)⟩

theorem applyOps_inv (ops : List Op) : ∀ s : TaskManager × IdCounter,
    StoreUnique s → StoreUnique (applyOps s ops) := by
  induction ops with
  | nil => intro s h; exact h
  | cons op ops ih => intro s h; exact ih (applyOp s op) (applyOp_inv s op h)

theorem applyOp_sticky (s : TaskManager × IdCounter) (op : Op)
    (h : (applyOp s op).2.overflowed = false) : s.2.overflowed = false := by
  cases op with
  | add description =>
    by_cases hd : description = []
    · simpa [applyOp, TaskManager.addTask, hd] using h
    · simp only [applyOp, TaskManager.addTask, hd, if_false, Task.create,
        Bool.or_eq_false_iff] at h
      exact h.1
  | markCompleted taskId => exact h
  | delete taskId => exact h

theorem applyOps_sticky (ops : List Op) : ∀ s : TaskManager × IdCounter,
    (applyOps s ops).2.overflowed = false → s.2.overflowed = false := by
  induction ops with
  | nil => intro s h; exact h
  | cons op ops ih => intro s h; exact applyOp_sticky s op (ih (applyOp s op) h)

/-! ## Lemmas: what loading stores -/

theorem getlineLoop_chars (d : Char) (s : Str) : ∀ cur : Str, d ∉ cur →
    ∀ tok ∈ getlineLoop d cur s, d ∉ tok ∧ ∀ ch ∈ tok, ch ∈ cur ∨ ch ∈ s := by
  induction s with
  | nil =>
    intro cur hcur tok htok
    simp only [getlineLoop] at htok
    split at htok
    · simp at htok
    · simp only [List.mem_singleton] at htok
      subst htok
      exact ⟨hcur, fun ch hch => Or.inl hch⟩
  | cons a s ih =>
    intro cur hcur tok htok
    simp only [getlineLoop] at htok
    split at htok
    · rcases List.mem_cons.1 htok with e | e
      · subst e
        exact ⟨hcur, fun ch hch => Or.inl hch⟩
      · obtain ⟨h1, h2⟩ := ih [] (by simp) tok e
        refine ⟨h1, fun ch hch => ?_⟩
        rcases h2 ch hch with k | k
        · simp at k
        · exact Or.inr (by simp [k])
    · rename_i hne
      have hcur' : d ∉ cur ++ [a] := by
        simp only [List.mem_append, List.mem_singleton, not_or]
        exact ⟨hcur, fun e => hne e.symm⟩
      obtain ⟨h1, h2⟩ := ih (cur ++ [a]) hcur' tok htok
      refine ⟨h1, fun ch hch => ?_⟩
      rcases h2 ch hch with k | k
      · rcases List.mem_append.1 k with k' | k'
        · exact Or.inl k'
        · simp only [List.mem_singleton] at k'
          exact Or.inr (by simp [k'])
      · exact Or.inr (by simp [k])

theorem fromString_fields (c : IdCounter) (line : Str) (r : Task × IdCounter)
    (h : Task.fromString c line = Except.ok r) (hne : r.1.description ≠ []) :
    InIntRange r.1.id ∧ ',' ∉ r.1.description ∧ ∀ ch ∈ r.1.description, ch ∈ line := by
  simp only [Task.fromString] at h
  split at h
  · rename_i t0 t1 t2 htok
    split at h
    · rename_i taskId hst
      cases h
      have hmem : t1 ∈ getlineLoop ',' [] line := by
        rw [getlines] at htok; rw [htok]; simp
      obtain ⟨h1, h2⟩ := getlineLoop_chars ',' line [] (by simp) t1 hmem
      refine ⟨stoi_range _ _ hst, h1, fun ch hch => ?_⟩
      rcases h2 ch hch with k | k
      · simp at k
      · exact k
    · cases h
  · cases h
    exact absurd rfl hne

theorem loadLoop_fields (lines : List Str) (hl : ∀ line ∈ lines, '\n' ∉ line) :
    ∀ (tasks : List Task) (c : IdCounter) (r : List Task × IdCounter),
    TaskManager.loadLoop lines tasks c = Except.ok r →
    (∀ t ∈ tasks, InIntRange t.id ∧ t.description ≠ [] ∧
      ',' ∉ t.description ∧ '\n' ∉ t.description) →
    ∀ t ∈ r.1, InIntRange t.id ∧ t.description ≠ [] ∧
      ',' ∉ t.description ∧ '\n' ∉ t.description := by
  induction lines with
  | nil =>
    intro tasks c r h hinv
    simp only [TaskManager.loadLoop] at h
    cases h; exact hinv
  | cons line rest ih =>
    intro tasks c r h hinv
    have hrest : ∀ l ∈ rest, '\n' ∉ l := fun l hl' => hl l (by simp [hl'])
    simp only [TaskManager.loadLoop] at h
    split at h
    · exact ih hrest _ _ _ h hinv
    · split at h
      · rename_i q hq
        split at h
        · exact ih hrest _ _ _ h hinv
        · rename_i hne
          obtain ⟨f1, f2, f3⟩ := fromString_fields c line q hq hne
          refine ih hrest _ _ _ h ?_
          intro t ht
          rcases List.mem_append.1 ht with e | e
          · exact hinv t e
          · simp only [List.mem_singleton] at e
            subst e
            exact ⟨f1, hne, f2, fun hmem => hl line (by simp) (f3 _ hmem)⟩
      · cases h

/-- Every task that `loadTasks` puts into an empty store has an `int` id and a
description that is non-empty and free of `','` and of `'\n'`. -/
theorem loadTasks_fields (c : IdCounter) (content : Str) (m : TaskManager) (c' : IdCounter)
    (h : TaskManager.loadTasks ⟨[]⟩ c (some content) = Except.ok (m, c')) :
    ∀ t ∈ m.tasks, InIntRange t.id ∧ t.description ≠ [] ∧
      ',' ∉ t.description ∧ '\n' ∉ t.description := by
  simp only [TaskManager.loadTasks] at h
  split at h
  · rename_i r hr
    cases h
    refine loadLoop_fields _ ?_ _ _ _ hr (fun t ht => by simp at ht)
    intro line hline
    exact (getlineLoop_chars '\n' content [] (by simp) line hline).1
  · cases h

/-- Saving is a right inverse of loading on everything that loading produces:
when `loadTasks` completes on a file content and yields the store `m`, saving
`m` and loading the written content yields `m` again. -/
theorem load_save_load (c : IdCounter) (content : Str) (m : TaskManager) (c' : IdCounter)
    (h : TaskManager.loadTasks ⟨[]⟩ c (some content) = Except.ok (m, c')) (c1 : IdCounter) :
    ∃ c2, TaskManager.loadTasks ⟨[]⟩ c1 (some (TaskManager.saveTasks m)) = Except.ok (m, c2) :=
  load_save_eq m.tasks c1 (loadTasks_fields c content m c' h)

/-! ## Lemmas: the stores that the program reaches -/

theorem readDescription_line (pending : Str) : '\n' ∉ readDescription pending := by
  intro h
  have := List.mem_takeWhile_imp h
  simp at this

theorem updateAt_fields (l : List Task) : ∀ (i : Nat), ∀ t ∈ updateAt Task.markCompleted l i,
    ∃ u ∈ l, t.id = u.id ∧ t.description = u.description := by
  induction l with
  | nil => intro i t ht; simp [updateAt] at ht
  | cons a l ih =>
    intro i t ht
    cases i with
    | zero =>
      simp only [updateAt, List.mem_cons] at ht
      rcases ht with e | e
      · exact ⟨a, by simp, by rw [e]; simp [Task.markCompleted]⟩
      · exact ⟨t, by simp [e], rfl, rfl⟩
    | succ n =>
      simp only [updateAt, List.mem_cons] at ht
      rcases ht with e | e
      · exact ⟨t, by simp [e], rfl, rfl⟩
      · obtain ⟨u, hu, h1⟩ := ih n t e
        exact ⟨u, by simp [hu], h1⟩

theorem markTaskCompleted_fields (m : TaskManager) (taskId : Int) :
    ∀ t ∈ (TaskManager.markTaskCompleted m taskId).1.tasks,
      ∃ u ∈ m.tasks, t.id = u.id ∧ t.description = u.description := by
  intro t ht
  simp only [TaskManager.markTaskCompleted] at ht
  split at ht
  · exact ⟨t, ht, rfl, rfl⟩
  · split at ht
    · split at ht
      · exact ⟨t, ht, rfl, rfl⟩
      · exact updateAt_fields _ _ t ht
    · exact ⟨t, ht, rfl, rfl⟩

theorem loadTasks_lineStore (file : Option Str) (s : TaskManager × IdCounter)
    (h : TaskManager.loadTasks ⟨[]⟩ IdCounter.init file = Except.ok s) : LineStore s := by
  cases file with
  | none =>
    simp only [TaskManager.loadTasks, Except.ok.injEq] at h
    subst h
    exact ⟨by decide, fun t ht => by simp at ht⟩
  | some content =>
    obtain ⟨m, c⟩ := s
    have hf := loadTasks_fields IdCounter.init content m c h
    refine ⟨?_, fun t ht => ⟨(hf t ht).1, (hf t ht).2.1, (hf t ht).2.2.2⟩⟩
    simp only [TaskManager.loadTasks] at h
    split at h
    · rename_i r hr
      cases h
      exact (loadLoop_inv _ _ _ _ hr ⟨by decide, fun _ t ht => by simp at ht⟩).1
    · cases h

theorem applyOp_lineStore (s : TaskManager × IdCounter) (i : MenuInput) (h : LineStore s) :
    LineStore (applyOp s i.toOp) := by
  obtain ⟨hr, hs⟩ := h
  cases i with
  | add pending =>
    by_cases hd : readDescription pending = []
    · simpa [MenuInput.toOp, applyOp, TaskManager.addTask, hd, LineStore] using And.intro hr hs
    · have e1 : (applyOp s (MenuInput.add pending).toOp).1.tasks =
          s.1.tasks ++ [(Task.create s.2 (readDescription pending)).1] := by
        simp [MenuInput.toOp, applyOp, TaskManager.addTask, hd]
      have e2 : (applyOp s (MenuInput.add pending).toOp).2 =
          (Task.create s.2 (readDescription pending)).2 := by
        simp [MenuInput.toOp, applyOp, TaskManager.addTask, hd]
      refine ⟨by rw [e2]; exact create_range _ _, ?_⟩
      intro t ht
      rw [e1] at ht
      rcases List.mem_append.1 ht with e | e
      · exact hs t e
      · simp only [List.mem_singleton] at e
        subst e
        exact ⟨hr, hd, readDescription_line pending⟩
  | markCompleted taskId =>
    refine ⟨hr, ?_⟩
    intro t ht
    obtain ⟨u, hu, h1, h2⟩ := markTaskCompleted_fields s.1 taskId t ht
    rw [h1, h2]
    exact hs u hu
  | delete taskId =>
    exact ⟨hr, fun t ht => hs t ((deleteTask_sublist s.1 taskId).subset ht)⟩

theorem applyOps_lineStore (inputs : List MenuInput) : ∀ s : TaskManager × IdCounter,
    LineStore s → LineStore (applyOps s (inputs.map MenuInput.toOp)) := by
  induction inputs with
  | nil => intro s h; exact h
  | cons i inputs ih => intro s h; exact ih (applyOp s i.toOp) (applyOp_lineStore s i h)

theorem runProgram_lineStore (file : Option Str) (inputs : List MenuInput)
    (s : TaskManager × IdCounter) (h : runProgram file inputs = Except.ok s) : LineStore s := by
  simp only [runProgram] at h
  split at h
  · rename_i s0 h0
    cases h
    exact applyOps_lineStore inputs s0 (loadTasks_lineStore file s0 h0)
  · cases h

/-! ## Theorems: the store round trip -/

/-- The descriptions being lines matters to the round trip: a task whose
description held a line terminator, which no store of the program holds
(`runProgram_lineStore`), would be written as two lines and both would be
dropped on loading. -/
theorem save_load_line_terminator :
    TaskManager.loadTasks ⟨[]⟩ IdCounter.init
      (some (TaskManager.saveTasks ⟨[⟨1, ['a', '\n', 'b'], false⟩]⟩)) =
      Except.ok (⟨[]⟩, ⟨3, false⟩) := by
  decide

/-- C1 (store round trip). For every store `S` that the program holds, after
loading any file (or none) at its start and serving any sequence of add,
mark-completed and delete operations, and in which no task description contains
the field delimiter `','`: `saveTasks` on `S` followed by `loadTasks` of the
content just written, into an empty store, completes and yields exactly `S`:
the same tasks in the same order, each with the same id, description and
completed flag. -/
theorem store_round_trip (file : Option Str) (inputs : List MenuInput) (S : TaskManager)
    (c : IdCounter) (hrun : runProgram file inputs = Except.ok (S, c))
    (hcomma : ∀ t ∈ S.tasks, ',' ∉ t.description) (c1 : IdCounter) :
    ∃ c2, TaskManager.loadTasks ⟨[]⟩ c1 (some (TaskManager.saveTasks S)) =
      Except.ok (S, c2) := by
  obtain ⟨_, hs⟩ := runProgram_lineStore file inputs (S, c) hrun
  exact load_save_eq S.tasks c1
    (fun t ht => ⟨(hs t ht).1, (hs t ht).2.1, hcomma t ht, (hs t ht).2.2⟩)

/-- Witness of `store_round_trip`: the file holds one record and a malformed
line; a task is added, marked completed, and the loaded task is deleted. -/
theorem store_round_trip_witness :
    runProgram (some "5,Buy milk,1\nx,y\n".toList)
        [MenuInput.add "\nCall Bob\n2\n".toList, MenuInput.markCompleted 7,
          MenuInput.add "\nPay rent".toList, MenuInput.delete 5] =
        Except.ok (⟨[⟨7, "Call Bob".toList, true⟩, ⟨8, "Pay rent".toList, false⟩]⟩,
          ⟨9, false⟩) ∧
      ∃ c2, TaskManager.loadTasks ⟨[]⟩ IdCounter.init
        (some (TaskManager.saveTasks
          ⟨[⟨7, "Call Bob".toList, true⟩, ⟨8, "Pay rent".toList, false⟩]⟩)) =
        Except.ok (⟨[⟨7, "Call Bob".toList, true⟩, ⟨8, "Pay rent".toList, false⟩]⟩, c2) :=
  ⟨by decide,
    store_round_trip (some "5,Buy milk,1\nx,y\n".toList)
      [MenuInput.add "\nCall Bob\n2\n".toList, MenuInput.markCompleted 7,
        MenuInput.add "\nPay rent".toList, MenuInput.delete 5]
      ⟨[⟨7, "Call Bob".toList, true⟩, ⟨8, "Pay rent".toList, false⟩]⟩ ⟨9, false⟩
      (by decide) (by decide) IdCounter.init⟩

/-! ## Theorems: uniqueness of ids in the store -/

/-- C5, as stated, fails. A file with the two records `1,a,0` and `1,b,0` loads
into a store with two tasks of id 1. And a file whose records have the distinct
ids `-5`, `2147483647`, `-7` loads into a store with distinct ids, after which
two calls of `addTask` create the ids `-6` and `-5`: the store then holds two
tasks of id `-5`. -/
theorem ids_unique_counterexample :
    TaskManager.loadTasks ⟨[]⟩ IdCounter.init (some "1,a,0\n1,b,0\n".toList) =
        Except.ok (⟨[⟨1, ['a'], false⟩, ⟨1, ['b'], false⟩]⟩, ⟨2, false⟩) ∧
      ¬ (([⟨1, ['a'], false⟩, ⟨1, ['b'], false⟩] : List Task).map Task.id).Nodup ∧
      TaskManager.loadTasks ⟨[]⟩ IdCounter.init
          (some "-5,a,0\n2147483647,b,0\n-7,c,0\n".toList) =
        Except.ok (⟨[⟨-5, ['a'], false⟩, ⟨2147483647, ['b'], false⟩, ⟨-7, ['c'], false⟩]⟩,
          ⟨-6, true⟩) ∧
      (applyOps (⟨[⟨-5, ['a'], false⟩, ⟨2147483647, ['b'], false⟩, ⟨-7, ['c'], false⟩]⟩,
          ⟨-6, true⟩) [Op.add ['d'], Op.add ['e']]).1.tasks.map Task.id =
        [-5, 2147483647, -7, -6, -5] := by
  decide

/-- C5 (id uniqueness, amended). When `loadTasks` at program start (empty store,
counter 1) completes on a file content and the tasks it has stored have
pairwise distinct ids, then after any sequence of add, mark-completed and
delete operations during which, as during the load, no increment of the id
counter has overflowed `int`, no two tasks in the store have the same id. -/
theorem ids_unique (content : Str) (m : TaskManager) (c : IdCounter) (ops : List Op)
    (hload : TaskManager.loadTasks ⟨[]⟩ IdCounter.init (some content) = Except.ok (m, c))
    (hnd : (m.tasks.map Task.id).Nodup)
    (hno : (applyOps (m, c) ops).2.overflowed = false) :
    ((applyOps (m, c) ops).1.tasks.map Task.id).Nodup := by
  have hbelow : StoreBelow m.tasks c := by
    simp only [TaskManager.loadTasks] at hload
    split at hload
    · rename_i r hr
      cases hload
      exact loadLoop_inv _ _ _ _ hr ⟨by decide, fun _ t ht => by simp at ht⟩
    · cases hload
  have hstart : StoreUnique (m, c) := ⟨hbelow.1, fun h => ⟨hnd, hbelow.2 h⟩⟩
  exact ((applyOps_inv ops (m, c) hstart).2 hno).1

/-- Witness of `ids_unique`: a file of two records and a malformed line,
followed by an add, a completion, a deletion and another add. -/
theorem ids_unique_witness :
    ((applyOps (⟨[⟨5, "Buy milk".toList, true⟩, ⟨2, ['b'], false⟩]⟩, ⟨7, false⟩)
      [Op.add ['c'], Op.markCompleted 2, Op.delete 5, Op.add ['d']]).1.tasks.map
        Task.id).Nodup :=
  ids_unique "5,Buy milk,1\nx,y\n2,b,0\n".toList
    ⟨[⟨5, "Buy milk".toList, true⟩, ⟨2, ['b'], false⟩]⟩ ⟨7, false⟩
    [Op.add ['c'], Op.markCompleted 2, Op.delete 5, Op.add ['d']]
    (by decide) (by decide) (by decide)

/-! ## Theorems: what `loadTasks` keeps and drops -/

theorem fromString_ok_iff (c : IdCounter) (line : Str) :
    (∃ r, Task.fromString c line = Except.ok r) ↔
      ∀ t0 t1 t2, getlines ',' line = [t0, t1, t2] → ∃ i, stoi t0 = Except.ok i := by
  simp only [Task.fromString]
  constructor
  · rintro ⟨r, h⟩ t0 t1 t2 htok
    rw [htok] at h
    simp only at h
    split at h
    · rename_i i hi; exact ⟨i, hi⟩
    · cases h
  · intro h
    split
    · rename_i t0 t1 t2 htok
      obtain ⟨i, hi⟩ := h t0 t1 t2 htok
      rw [hi]
      exact ⟨_, rfl⟩
    · exact ⟨_, rfl⟩

theorem fromString_accepted (c : IdCounter) (line : Str) (r : Task × IdCounter)
    (h : Task.fromString c line = Except.ok r) :
    acceptedRecord line = if r.1.description = [] then none else some r.1 := by
  simp only [Task.fromString] at h
  simp only [acceptedRecord]
  split at h
  · rename_i t0 t1 t2 htok
    split at h
    · rename_i i hi
      cases h
      simp only [hi, Task.reconstruct]
    · cases h
  · rename_i hnot
    cases h
    simp only [Task.create, if_true]

theorem loadLoop_filter (lines : List Str) : ∀ (tasks : List Task) (c : IdCounter)
    (r : List Task × IdCounter), TaskManager.loadLoop lines tasks c = Except.ok r →
    r.1 = tasks ++ lines.filterMap acceptedRecord := by
  induction lines with
  | nil =>
    intro tasks c r h
    simp only [TaskManager.loadLoop] at h
    cases h; simp
  | cons line rest ih =>
    intro tasks c r h
    simp only [TaskManager.loadLoop] at h
    split at h
    · rename_i hempty
      have : acceptedRecord line = none := by
        rw [hempty]; rfl
      rw [List.filterMap_cons, this]
      exact ih _ _ _ h
    · split at h
      · rename_i q hq
        have hacc := fromString_accepted c line q hq
        split at h
        · rename_i hd
          rw [if_pos hd] at hacc
          rw [List.filterMap_cons, hacc]
          exact ih _ _ _ h
        · rename_i hd
          rw [if_neg hd] at hacc
          rw [List.filterMap_cons, hacc, ih _ _ _ h]
          simp
      · cases h

theorem loadLoop_ok_iff (lines : List Str) : ∀ (tasks : List Task) (c : IdCounter),
    (∃ r, TaskManager.loadLoop lines tasks c = Except.ok r) ↔ IdsParse lines := by
  induction lines with
  | nil =>
    intro tasks c
    simp [TaskManager.loadLoop, IdsParse]
  | cons line rest ih =>
    intro tasks c
    have hsplit : IdsParse (line :: rest) ↔
        (∀ t0 t1 t2, getlines ',' line = [t0, t1, t2] → ∃ i, stoi t0 = Except.ok i) ∧
          IdsParse rest := by
      simp [IdsParse]
    rw [hsplit, ← fromString_ok_iff c line]
    simp only [TaskManager.loadLoop]
    by_cases hempty : line = []
    · simp only [hempty, if_true]
      rw [ih]
      have : ∃ r, Task.fromString c [] = Except.ok r := ⟨_, rfl⟩
      simp [this]
    · simp only [hempty, if_false]
      cases hq : Task.fromString c line with
      | error e => simp
      | ok q =>
        simp only [Except.ok.injEq, exists_eq', true_and]
        split
        · exact ih _ _
        · exact ih _ _

/-- What `loadTasks` does on every file content. It completes exactly when no
line of three fields has an id field that `stoi` rejects; and when it
completes, the store is, in file order, the sequence of the records of the
lines that are cut into exactly three fields with a non-empty description,
every other line being dropped. -/
theorem load_filtering (c : IdCounter) (content : Str) :
    ((∃ r, TaskManager.loadTasks ⟨[]⟩ c (some content) = Except.ok r) ↔
        IdsParse (getlines '\n' content)) ∧
      ∀ m c', TaskManager.loadTasks ⟨[]⟩ c (some content) = Except.ok (m, c') →
        m.tasks = (getlines '\n' content).filterMap acceptedRecord := by
  constructor
  · rw [← loadLoop_ok_iff (getlines '\n' content) [] c]
    simp only [TaskManager.loadTasks]
    cases h : TaskManager.loadLoop (getlines '\n' content) [] c with
    | error e => simp
    | ok r => simp
  · intro m c' h
    simp only [TaskManager.loadTasks] at h
    split at h
    · rename_i r hr
      cases h
      simpa using loadLoop_filter _ _ _ _ hr
    · cases h


/-- C6, at the failing input: the line `x,y,z` splits at `','` into exactly
three fields with the non-empty description `y`, and `loadTasks` on a file
holding this line does not complete: `stoi` throws `std::invalid_argument`,
which nothing catches. The same happens when the id field is a number outside
`int` (`std::out_of_range`). -/
theorem load_unparsable_id_throws :
    getlines ',' "x,y,z".toList = [['x'], ['y'], ['z']] ∧
      TaskManager.loadTasks ⟨[]⟩ IdCounter.init (some "x,y,z\n".toList) =
        Except.error Exn.invalid_argument ∧
      TaskManager.loadTasks ⟨[]⟩ IdCounter.init (some "5,Buy milk,1\n2147483648,y,0\n".toList) =
        Except.error Exn.out_of_range := by
  decide

/-- The example of C6: a file with the lines `5,Buy milk,1` and `x,y` loads to
exactly one task, with id 5, description "Buy milk" and completed = true. -/
theorem load_example :
    (TaskManager.loadTasks ⟨[]⟩ IdCounter.init (some "5,Buy milk,1\nx,y\n".toList)).map
      (fun r => r.1.tasks) = Except.ok [⟨5, "Buy milk".toList, true⟩] := by
  decide

/-! ## Lemmas: rounding -/

theorem roundHalfEven_err (num den : Nat) (hd : 0 < den) :
    |(roundHalfEven num den : ℚ) - (num : ℚ) / den| ≤ 1 / 2 := by
  have h := Nat.div_add_mod num den
  have hr := Nat.mod_lt num hd
  have hdq : (0 : ℚ) < den := by exact_mod_cast hd
  have hq : (num : ℚ) = den * (num / den : Nat) + (num % den : Nat) := by exact_mod_cast h.symm
  have e : (num : ℚ) / den = (num / den : Nat) + ((num % den : Nat) : ℚ) / den := by
    field_simp
    linarith
  have hlt : ((num % den : Nat) : ℚ) / den < 1 := by
    rw [div_lt_one hdq]; exact_mod_cast hr
  have hge : (0 : ℚ) ≤ ((num % den : Nat) : ℚ) / den := by positivity
  rw [abs_le, e]
  unfold roundHalfEven
  split_ifs with h1 h2 h3
  · have : ((num % den : Nat) : ℚ) / den ≤ 1 / 2 := by
      rw [div_le_iff₀ hdq]
      have : ((2 * (num % den) : Nat) : ℚ) < den := by exact_mod_cast h1
      push_cast at this; linarith
    constructor <;> linarith
  · have : (1 : ℚ) / 2 ≤ ((num % den : Nat) : ℚ) / den := by
      rw [le_div_iff₀ hdq]
      have : ((den : Nat) : ℚ) < ((2 * (num % den) : Nat) : ℚ) := by exact_mod_cast h2
      push_cast at this; linarith
    push_cast
    constructor <;> linarith
  · have h4 : 2 * (num % den) = den := by omega
    have : ((num % den : Nat) : ℚ) / den = 1 / 2 := by
      rw [div_eq_iff hdq.ne']
      have : ((2 * (num % den) : Nat) : ℚ) = den := by exact_mod_cast h4
      push_cast at this; linarith
    constructor <;> linarith
  · have h4 : 2 * (num % den) = den := by omega
    have : ((num % den : Nat) : ℚ) / den = 1 / 2 := by
      rw [div_eq_iff hdq.ne']
      have : ((2 * (num % den) : Nat) : ℚ) = den := by exact_mod_cast h4
      push_cast at this; linarith
    push_cast
    constructor <;> linarith

theorem scaleDen_pos (den : Nat) (e : Int) (hd : 0 < den) : 0 < scaleDen den e := by
  unfold scaleDen
  split_ifs
  · positivity
  · exact hd

theorem scale_eq (num den : Nat) (e : Int) (hd : 0 < den) :
    (scaleNum num e : ℚ) / (scaleDen den e : ℚ) = (num : ℚ) / den * (2 : ℚ) ^ (-e) := by
  have hdq : (0 : ℚ) < den := by exact_mod_cast hd
  unfold scaleNum scaleDen
  split_ifs with h
  · obtain ⟨n, rfl⟩ := Int.eq_ofNat_of_zero_le h
    simp only [Int.toNat_ofNat, Nat.cast_mul, Nat.cast_pow, Nat.cast_ofNat, zpow_neg,
      zpow_natCast]
    field_simp
  · obtain ⟨n, hn⟩ := Int.eq_ofNat_of_zero_le (show 0 ≤ -e by omega)
    rw [hn]
    simp only [Int.toNat_ofNat, Nat.cast_mul, Nat.cast_pow, Nat.cast_ofNat, zpow_natCast]
    field_simp

theorem bitLengthAux_spec (fuel : Nat) : ∀ n : Nat, n ≤ fuel →
    n < 2 ^ bitLengthAux fuel n ∧ (n ≠ 0 → 2 ^ (bitLengthAux fuel n - 1) ≤ n) := by
  induction fuel with
  | zero => intro n h; have : n = 0 := by omega
            subst this; simp [bitLengthAux]
  | succ fuel ih =>
    intro n hn
    by_cases h0 : n = 0
    · subst h0; simp [bitLengthAux]
    · obtain ⟨h1, h2⟩ := ih (n / 2) (by omega)
      simp only [bitLengthAux, h0, if_false, Nat.add_sub_cancel]
      refine ⟨?_, fun _ => ?_⟩
      · rw [pow_succ]; omega
      · by_cases h1' : n / 2 = 0
        · have : n = 1 := by omega
          subst this
          have hz : bitLengthAux fuel 0 = 0 := by cases fuel <;> simp [bitLengthAux]
          simp [hz]
        · have h3 := h2 h1'
          have hpos : 0 < bitLengthAux fuel (n / 2) := by
            by_contra hc
            have : bitLengthAux fuel (n / 2) = 0 := by omega
            rw [this] at h1; omega
          have e : bitLengthAux fuel (n / 2) = (bitLengthAux fuel (n / 2) - 1) + 1 := by omega
          rw [e, pow_succ]; omega

theorem bitLength_spec (n : Nat) (h : n ≠ 0) :
    2 ^ (bitLength n - 1) ≤ n ∧ n < 2 ^ bitLength n ∧ 0 < bitLength n := by
  obtain ⟨h1, h2⟩ := bitLengthAux_spec n n (le_refl n)
  refine ⟨h2 h, h1, ?_⟩
  by_contra hc
  have : bitLength n = 0 := by omega
  unfold bitLength at this
  rw [this] at h1; omega

theorem binadeExp_spec (num den : Nat) (hn : 0 < num) (hd : 0 < den) :
    (2 : ℚ) ^ (52 + binadeExp num den) ≤ (num : ℚ) / den ∧
      (num : ℚ) / den < (2 : ℚ) ^ (53 + binadeExp num den) := by
  obtain ⟨n1, n2, n3⟩ := bitLength_spec num (by omega)
  obtain ⟨d1, d2, d3⟩ := bitLength_spec den (by omega)
  have hdq : (0 : ℚ) < den := by exact_mod_cast hd
  obtain ⟨a, ha⟩ : ∃ a, bitLength num = a + 1 := ⟨bitLength num - 1, by omega⟩
  obtain ⟨b, hb⟩ : ∃ b, bitLength den = b + 1 := ⟨bitLength den - 1, by omega⟩
  rw [ha] at n1 n2
  rw [hb] at d1 d2
  simp only [Nat.add_sub_cancel] at n1 d1
  have n1q : (2 : ℚ) ^ a ≤ num := by exact_mod_cast n1
  have n2q : (num : ℚ) < 2 ^ a * 2 := by rw [← pow_succ]; exact_mod_cast n2
  have d1q : (2 : ℚ) ^ b ≤ den := by exact_mod_cast d1
  have d2q : (den : ℚ) < 2 ^ b * 2 := by rw [← pow_succ]; exact_mod_cast d2
  have hA : (0 : ℚ) < 2 ^ a := by positivity
  have hB : (0 : ℚ) < 2 ^ b := by positivity
  have he0 : ((bitLength num : Int) - (bitLength den : Int) - 52) = (a : Int) - b - 52 := by
    rw [ha, hb]; push_cast; ring
  have hP : (2 : ℚ) ^ ((a : Int) - b - 52) = 2 ^ a / 2 ^ b / 2 ^ 52 := by
    rw [zpow_sub₀ (by norm_num), zpow_sub₀ (by norm_num), zpow_natCast, zpow_natCast]
    norm_num
  have hlow : (2 : ℚ) ^ a / 2 ^ b / 2 < (num : ℚ) / den := by
    rw [div_div, div_lt_div_iff₀ (by positivity) hdq]
    nlinarith
  have hupp : (num : ℚ) / den < 2 ^ a / 2 ^ b * 2 := by
    rw [div_mul_eq_mul_div, div_lt_div_iff₀ hdq hB]
    nlinarith
  have hsc := scale_eq num den ((a : Int) - b - 52) hd
  have hsd : (0 : ℚ) < scaleDen den ((a : Int) - b - 52) := by
    exact_mod_cast scaleDen_pos den _ hd
  have hcheck : (2 ^ 52 * scaleDen den ((a : Int) - b - 52) ≤ scaleNum num ((a : Int) - b - 52)) ↔
      (2 : ℚ) ^ 52 * (2 ^ a / 2 ^ b / 2 ^ 52) ≤ (num : ℚ) / den := by
    have hcast : (2 ^ 52 * scaleDen den ((a : Int) - b - 52) ≤ scaleNum num ((a : Int) - b - 52)) ↔
        (2 : ℚ) ^ 52 * (scaleDen den ((a : Int) - b - 52) : ℚ) ≤
          (scaleNum num ((a : Int) - b - 52) : ℚ) := by
      constructor
      · intro h; exact_mod_cast h
      · intro h; exact_mod_cast h
    rw [hcast, ← le_div_iff₀ hsd, hsc, zpow_neg, hP, ← div_eq_mul_inv, le_div_iff₀ (by positivity)]
  unfold binadeExp
  rw [he0]
  split_ifs with hc
  · rw [hcheck] at hc
    rw [zpow_add₀ (by norm_num), zpow_add₀ (by norm_num), hP]
    simp only [zpow_ofNat]
    refine ⟨hc, ?_⟩
    calc (num : ℚ) / den < 2 ^ a / 2 ^ b * 2 := hupp
      _ = (2 : ℚ) ^ 53 * (2 ^ a / 2 ^ b / 2 ^ 52) := by field_simp; ring
  · rw [hcheck, not_le] at hc
    have e1 : (52 : Int) + ((a : Int) - b - 52 - 1) = ((a : Int) - b - 52) + 51 := by ring
    have e2 : (53 : Int) + ((a : Int) - b - 52 - 1) = ((a : Int) - b - 52) + 52 := by ring
    rw [e1, e2, zpow_add₀ (by norm_num), zpow_add₀ (by norm_num), hP]
    simp only [zpow_ofNat]
    constructor
    · have : (2 : ℚ) ^ a / 2 ^ b / 2 ^ 52 * 2 ^ 51 = 2 ^ a / 2 ^ b / 2 := by
        field_simp; ring
      rw [this]; exact hlow.le
    · have : (2 : ℚ) ^ a / 2 ^ b / 2 ^ 52 * 2 ^ 52 = 2 ^ 52 * (2 ^ a / 2 ^ b / 2 ^ 52) := by
        ring
      rw [this]; exact hc

theorem roundToDouble_err (neg : Bool) (num den : Nat) (hd : 0 < den) :
    |(roundToDouble neg num den).magnitude - (num : ℚ) / den| ≤ (num : ℚ) / den / 2 ^ 53 := by
  by_cases h0 : num = 0
  · subst h0; simp [roundToDouble, Double.magnitude]
  · have hn : 0 < num := by omega
    obtain ⟨hlow, _⟩ := binadeExp_spec num den hn hd
    have hP : (0 : ℚ) < (2 : ℚ) ^ binadeExp num den := by positivity
    have hA := roundHalfEven_err (scaleNum num (binadeExp num den))
      (scaleDen den (binadeExp num den)) (scaleDen_pos den _ hd)
    rw [scale_eq num den _ hd, zpow_neg, ← div_eq_mul_inv, abs_le] at hA
    rw [zpow_add₀ (by norm_num)] at hlow
    simp only [zpow_ofNat] at hlow
    have hmag : (roundToDouble neg num den).magnitude =
        (roundHalfEven (scaleNum num (binadeExp num den))
          (scaleDen den (binadeExp num den)) : ℚ) * (2 : ℚ) ^ binadeExp num den := by
      simp [roundToDouble, h0, Double.magnitude]
    have hx : (num : ℚ) / den =
        (num : ℚ) / den / (2 : ℚ) ^ binadeExp num den * (2 : ℚ) ^ binadeExp num den := by
      rw [div_mul_cancel₀ _ hP.ne']
    rw [hmag, abs_le]
    have k1 := mul_le_mul_of_nonneg_right hA.1 hP.le
    have k2 := mul_le_mul_of_nonneg_right hA.2 hP.le
    rw [sub_mul, ← hx] at k1 k2
    constructor <;> linarith

theorem roundToDouble_normalised (neg : Bool) (num den : Nat) (hn : 0 < num) (hd : 0 < den) :
    2 ^ 52 ≤ (roundToDouble neg num den).mant ∧ (roundToDouble neg num den).mant ≤ 2 ^ 53 := by
  obtain ⟨hlow, hupp⟩ := binadeExp_spec num den hn hd
  have hP : (0 : ℚ) < (2 : ℚ) ^ binadeExp num den := by positivity
  have hA := roundHalfEven_err (scaleNum num (binadeExp num den))
    (scaleDen den (binadeExp num den)) (scaleDen_pos den _ hd)
  rw [scale_eq num den _ hd, zpow_neg, ← div_eq_mul_inv, abs_le] at hA
  rw [zpow_add₀ (by norm_num)] at hlow hupp
  simp only [zpow_ofNat] at hlow hupp
  have h1 : (2 : ℚ) ^ 52 ≤ (num : ℚ) / den / (2 : ℚ) ^ binadeExp num den := by
    rw [le_div_iff₀ hP]; exact hlow
  have h2 : (num : ℚ) / den / (2 : ℚ) ^ binadeExp num den < (2 : ℚ) ^ 53 := by
    rw [div_lt_iff₀ hP]; exact hupp
  have hm : (roundToDouble neg num den).mant =
      roundHalfEven (scaleNum num (binadeExp num den)) (scaleDen den (binadeExp num den)) := by
    simp [roundToDouble, Nat.pos_iff_ne_zero.1 hn]
  rw [hm]
  constructor
  · have hq : ((4503599627370495 : Nat) : ℚ) <
        (roundHalfEven (scaleNum num (binadeExp num den))
          (scaleDen den (binadeExp num den)) : ℚ) := by
      norm_num at h1; push_cast; linarith [hA.1]
    have := Nat.cast_lt.1 hq
    norm_num; omega
  · have hq : (roundHalfEven (scaleNum num (binadeExp num den))
          (scaleDen den (binadeExp num den)) : ℚ) < ((9007199254740993 : Nat) : ℚ) := by
      norm_num at h2; push_cast; linarith [hA.2]
    have := Nat.cast_lt.1 hq
    norm_num; omega

theorem tenths_err (x : Double) : |(x.tenths : ℚ) - 10 * x.magnitude| ≤ 1 / 2 := by
  have hA := roundHalfEven_err (scaleNum (10 * x.mant) (-x.exp)) (scaleDen 1 (-x.exp))
    (scaleDen_pos 1 _ (by decide))
  rw [scale_eq _ 1 _ (by decide)] at hA
  simp only [neg_neg, Nat.cast_mul, Nat.cast_ofNat, Nat.cast_one, div_one] at hA
  simpa [Double.tenths, Double.magnitude, mul_assoc] using hA

/-- Accuracy of the rate computed in `double` and printed with one decimal:
for `c` completed among `t` tasks (`0 < t ≤ INT_MAX`), the number of tenths `d`
printed satisfies `|d / 10 - 100 * c / t| ≤ 1 / 20`, stated in integers. -/
theorem rate_accuracy (c t : Nat) (ht : 0 < t) (hct : c ≤ t) (hbound : t ≤ 2147483647) :
    (Double.mul (Double.div (Double.ofInt c) (Double.ofInt t)) (Double.ofInt 100)).neg = false ∧
      |2 * (t : Int) *
          ((Double.mul (Double.div (Double.ofInt c) (Double.ofInt t))
            (Double.ofInt 100)).tenths : Int) - 2000 * (c : Int)| ≤ (t : Int) := by
  have hoc : Double.ofInt (c : Int) = ⟨false, c, 0⟩ := by simp [Double.ofInt]
  have hot : Double.ofInt (t : Int) = ⟨false, t, 0⟩ := by simp [Double.ofInt]
  have ho100 : Double.ofInt 100 = ⟨false, 100, 0⟩ := by decide
  have hdiv : Double.div ⟨false, c, 0⟩ ⟨false, t, 0⟩ = roundToDouble false c t := by
    simp [Double.div, scaleNum, scaleDen]
  rw [hoc, hot, ho100, hdiv]
  have hneg : ∀ n d, (roundToDouble false n d).neg = false := by
    intro n d; unfold roundToDouble; split_ifs <;> rfl
  have hmul : Double.mul (roundToDouble false c t) ⟨false, 100, 0⟩ =
      roundToDouble false (scaleNum ((roundToDouble false c t).mant * 100)
        (-(roundToDouble false c t).exp)) (scaleDen 1 (-(roundToDouble false c t).exp)) := by
    simp [Double.mul, hneg]
  rw [hmul]
  refine ⟨hneg _ _, ?_⟩
  have htq : (0 : ℚ) < t := by exact_mod_cast ht
  have h1 := roundToDouble_err false c t ht
  have h2 := roundToDouble_err false (scaleNum ((roundToDouble false c t).mant * 100)
    (-(roundToDouble false c t).exp)) (scaleDen 1 (-(roundToDouble false c t).exp))
    (scaleDen_pos 1 _ (by decide))
  rw [scale_eq _ 1 _ (by decide)] at h2
  simp only [neg_neg, Nat.cast_mul, Nat.cast_ofNat, Nat.cast_one, div_one] at h2
  have hX : ((roundToDouble false c t).mant : ℚ) * 100 * (2 : ℚ) ^ (roundToDouble false c t).exp =
      100 * (roundToDouble false c t).magnitude := by
    simp only [Double.magnitude]; ring
  rw [hX] at h2
  have h3 := tenths_err (roundToDouble false (scaleNum ((roundToDouble false c t).mant * 100)
    (-(roundToDouble false c t).exp)) (scaleDen 1 (-(roundToDouble false c t).exp)))
  generalize (roundToDouble false (scaleNum ((roundToDouble false c t).mant * 100)
    (-(roundToDouble false c t).exp)) (scaleDen 1 (-(roundToDouble false c t).exp))).tenths = d
    at h3 ⊢
  generalize (roundToDouble false (scaleNum ((roundToDouble false c t).mant * 100)
    (-(roundToDouble false c t).exp)) (scaleDen 1 (-(roundToDouble false c t).exp))).magnitude = Y
    at h2 h3
  generalize (roundToDouble false c t).magnitude = X at h1 h2
  have hρ0 : (0 : ℚ) ≤ (c : ℚ) / t := by positivity
  have hρ1 : (c : ℚ) / t ≤ 1 := by
    rw [div_le_one htq]; exact_mod_cast hct
  rw [abs_le] at h1 h2 h3
  obtain ⟨h1a, h1b⟩ := h1
  obtain ⟨h2a, h2b⟩ := h2
  obtain ⟨h3a, h3b⟩ := h3
  have hc : (c : ℚ) = (c : ℚ) / t * t := by field_simp
  have htb : (t : ℚ) ≤ 2147483647 := by exact_mod_cast hbound
  have key1 : (d : ℚ) - 1000 * ((c : ℚ) / t) ≤ 1 / 2 + 1 / 4294967296 := by
    norm_num at h1a h1b h2a h2b ⊢; linarith
  have key2 : -(1 / 2 + 1 / 4294967296) ≤ (d : ℚ) - 1000 * ((c : ℚ) / t) := by
    norm_num at h1a h1b h2a h2b ⊢; linarith
  have m1 := mul_le_mul_of_nonneg_left key1 (show (0 : ℚ) ≤ 2 * t by positivity)
  have m2 := mul_le_mul_of_nonneg_left key2 (show (0 : ℚ) ≤ 2 * t by positivity)
  have e : 2 * (t : ℚ) * ((d : ℚ) - 1000 * ((c : ℚ) / t)) = 2 * t * d - 2000 * c := by
    field_simp; ring
  rw [e] at m1 m2
  have u1 : (2 * (t : ℚ) * d - 2000 * c) < t + 1 := by
    have : 2 * (t : ℚ) * (1 / 2 + 1 / 4294967296) < t + 1 := by linarith
    linarith
  have u2 : -((t : ℚ) + 1) < (2 * (t : ℚ) * d - 2000 * c) := by
    have : 2 * (t : ℚ) * (1 / 2 + 1 / 4294967296) < t + 1 := by linarith
    linarith
  have v1 : 2 * (t : Int) * (d : Int) - 2000 * (c : Int) < (t : Int) + 1 := by
    have : ((2 * (t : Int) * (d : Int) - 2000 * (c : Int) : Int) : ℚ) < (((t : Int) + 1 : Int) : ℚ) := by
      push_cast; exact u1
    exact_mod_cast this
  have v2 : -((t : Int) + 1) < 2 * (t : Int) * (d : Int) - 2000 * (c : Int) := by
    have : ((-((t : Int) + 1) : Int) : ℚ) < ((2 * (t : Int) * (d : Int) - 2000 * (c : Int) : Int) : ℚ) := by
      push_cast; exact u2
    exact_mod_cast this
  rw [abs_le]
  constructor <;> omega

/-! ## Theorems: statistics -/

theorem count_if_eq (l : List Task) :
    count_if Task.completed l = (l.filter Task.completed).length ∧
      count_if Task.completed l ≤ l.length := by
  induction l with
  | nil => simp [count_if]
  | cons a l ih =>
    cases h : a.completed
    · simp only [count_if, h, List.filter_cons_of_neg, Bool.false_eq_true, not_false_eq_true,
        if_false, List.length_cons]
      exact ⟨ih.1, by omega⟩
    · simp only [count_if, h, List.filter_cons_of_pos, if_true, List.length_cons]
      exact ⟨by omega, by omega⟩

/-- C10, as stated, fails on a store too large for `int`: with 2147483648
tasks, `int total = tasks.size()` is `-2147483648`, not the number of tasks, the
guard `total > 0` fails and no rate is printed although the store is not
empty. -/
theorem statistics_counterexample :
    (List.replicate 2147483648 (⟨1, ['a'], false⟩ : Task)).length = 2147483648 ∧
      (TaskManager.showStatistics
        ⟨List.replicate 2147483648 ⟨1, ['a'], false⟩⟩).total = -2147483648 ∧
      (TaskManager.showStatistics
        ⟨List.replicate 2147483648 ⟨1, ['a'], false⟩⟩).completionRate = none := by
  have hw : wrapInt ((2147483648 : Nat) : Int) = -2147483648 := by decide
  refine ⟨List.length_replicate _ _, ?_, ?_⟩
  · simp only [TaskManager.showStatistics, List.length_replicate, hw]
  · simp only [TaskManager.showStatistics, List.length_replicate, hw]
    decide

/-- C10 (statistics, amended). For every store of at most `INT_MAX` tasks,
`showStatistics` computes total = number of tasks, completed = number of tasks
with `completed = true` and pending = total - completed; the completion rate
is produced if and only if total > 0, and the text printed is then the decimal
digits of `d / 10`, a point, and the digit `d % 10`, for a number of tenths
`d ≤ 1000` such that `d / 10` is a nearest one-decimal value of
`completed / total * 100` (`|d / 10 - 100 * completed / total| ≤ 1 / 20`,
written `|2 * total * d - 2000 * completed| ≤ total`). For the empty store the
result is 0, 0, 0 with no rate; for a store of 3 tasks with exactly 1 completed
the rate printed is `33.3`, and for a store of 2 tasks with exactly 1 completed
it is `50.0`. -/
theorem statistics_correct (m : TaskManager) (hsize : (m.tasks.length : Int) ≤ INT_MAX) :
    (TaskManager.showStatistics m).total = m.tasks.length ∧
      (TaskManager.showStatistics m).completed = (m.tasks.filter Task.completed).length ∧
      (TaskManager.showStatistics m).pending =
        (TaskManager.showStatistics m).total - (TaskManager.showStatistics m).completed ∧
      ((TaskManager.showStatistics m).completionRate.isSome = true ↔
        0 < (TaskManager.showStatistics m).total) ∧
      (0 < (TaskManager.showStatistics m).total →
        ∃ d : Nat, d ≤ 1000 ∧
          (TaskManager.showStatistics m).completionRate =
            some (Nat.toDigits 10 (d / 10) ++ ['.'] ++ Nat.toDigits 10 (d % 10)) ∧
          |2 * (TaskManager.showStatistics m).total * (d : Int) -
            2000 * (TaskManager.showStatistics m).completed| ≤
              (TaskManager.showStatistics m).total) ∧
      TaskManager.showStatistics ⟨[]⟩ = ⟨0, 0, 0, none⟩ ∧
      (m.tasks.length = 3 → (m.tasks.filter Task.completed).length = 1 →
        TaskManager.showStatistics m = ⟨3, 1, 2, some ['3', '3', '.', '3']⟩) ∧
      (m.tasks.length = 2 → (m.tasks.filter Task.completed).length = 1 →
        TaskManager.showStatistics m = ⟨2, 1, 1, some ['5', '0', '.', '0']⟩) := by
  obtain ⟨hc1, hc2⟩ := count_if_eq m.tasks
  have hmax : INT_MAX = 2147483647 := rfl
  have hmin : INT_MIN = -2147483648 := rfl
  have hlen : wrapInt (m.tasks.length : Int) = m.tasks.length :=
    wrapInt_of_range _ (by rw [hmin]; omega) hsize
  have hcnt : wrapInt (count_if Task.completed m.tasks : Int) = count_if Task.completed m.tasks :=
    wrapInt_of_range _ (by rw [hmin]; omega) (by rw [hmax] at hsize ⊢; omega)
  have hpen : wrapInt ((m.tasks.length : Int) - (count_if Task.completed m.tasks : Int)) =
      (m.tasks.length : Int) - (count_if Task.completed m.tasks : Int) :=
    wrapInt_of_range _ (by rw [hmin]; omega) (by rw [hmax] at hsize ⊢; omega)
  have hst : TaskManager.showStatistics m =
      { total := m.tasks.length,
        completed := count_if Task.completed m.tasks,
        pending := (m.tasks.length : Int) - (count_if Task.completed m.tasks : Int),
        completionRate :=
          if (m.tasks.length : Int) > 0 then
            some (formatFixed1
              (Double.mul
                (Double.div (Double.ofInt (count_if Task.completed m.tasks : Nat))
                  (Double.ofInt (m.tasks.length : Nat)))
                (Double.ofInt 100)))
          else none } := by
    simp only [TaskManager.showStatistics, hlen, hcnt, hpen]
  refine ⟨by rw [hst], by rw [hst, hc1], by rw [hst], ?_, ?_, by decide, ?_, ?_⟩
  · rw [hst]
    by_cases h : (m.tasks.length : Int) > 0
    · simp [h]
    · simp [h]
  · rw [hst]
    intro hpos
    have hpos2 : (0 : Int) < (m.tasks.length : Int) := hpos
    have hpos' : 0 < m.tasks.length := by exact_mod_cast hpos2
    obtain ⟨hneg, hacc⟩ := rate_accuracy (count_if Task.completed m.tasks) m.tasks.length hpos' hc2
      (by rw [hmax] at hsize; omega)
    refine ⟨_, ?_, ?_, hacc⟩
    · rw [abs_le] at hacc
      have hc3 : (count_if Task.completed m.tasks : Int) ≤ (m.tasks.length : Int) := by
        exact_mod_cast hc2
      by_contra hgt
      have hd : (1001 : Int) ≤
          ((Double.mul (Double.div (Double.ofInt (count_if Task.completed m.tasks : Nat))
            (Double.ofInt (m.tasks.length : Nat))) (Double.ofInt 100)).tenths : Int) := by
        have := Nat.lt_of_not_le hgt
        exact_mod_cast this
      nlinarith [hacc.2, mul_le_mul_of_nonneg_left hd (show (0 : Int) ≤ 2 * (m.tasks.length : Int) by omega)]
    · simp only [gt_iff_lt, hpos2, if_true, formatFixed1, hneg, renderTenths]
      simp
  · intro h3 h1
    rw [hst, hc1, h1, h3]
    decide
  · intro h2 h1
    rw [hst, hc1, h1, h2]
    decide

/-- Witness of `statistics_correct` at a store of three tasks, one completed. -/
theorem statistics_correct_witness :
    TaskManager.showStatistics ⟨[⟨1, ['a'], false⟩, ⟨2, ['b'], true⟩, ⟨3, ['c'], false⟩]⟩ =
      ⟨3, 1, 2, some ['3', '3', '.', '3']⟩ :=
  (statistics_correct ⟨[⟨1, ['a'], false⟩, ⟨2, ['b'], true⟩, ⟨3, ['c'], false⟩]⟩
    (by decide)).2.2.2.2.2.2.1 rfl rfl

end TaskManagerApp
